import Mathlib

/-!
Shallow embedding of the PDF-merge engine of this repository
(package `pdf`: `MergeFiles`, `copyReferencedObjects`, `mergePageTrees`).

The object model and the object-store operations (`Open`/`Create`/`Get`/
`Add`/`Save`/`Close`, the `Root` field) belong to the external
`github.com/nathankerr/pdf` collaborator; they are modelled from the
spec's Document-Handle contract (see the doc comments below).  The three
merge functions themselves are translated line by line from the Go
source.  Go type assertions `x.(T)` abort the program when they fail;
they are modelled as a distinguished `panicAssert` error kind, tagged
with the assertion site and the asserted type.  Go's unbounded recursion
is modelled with an explicit fuel parameter; `copy_terminates` below
shows a computable fuel bound that is always sufficient, which is the
termination argument for the Go original.
-/

/-- A PDF object reference: numeric object id plus generation number. -/
abbrev ObjRef := Nat × Nat

/-- The PDF object kinds used by the merge engine: Null, Name, Integer,
Real, String, Dictionary, Array, Stream (dictionary plus an opaque
payload, which the copy engine carries through unchanged) and
ObjectReference.  The Real payload is opaque to the merge engine, so it
is carried as an abstract integer code rather than a floating value. -/
inductive Obj where
  | null : Obj
  | name (s : String) : Obj
  | int (n : Int) : Obj
  | real (v : Int) : Obj
  | str (s : String) : Obj
  | dict (es : List (String × Obj)) : Obj
  | arr (xs : List Obj) : Obj
  | stream (es : List (String × Obj)) (payload : Nat) : Obj
  | ref (i g : Nat) : Obj

/-- A PDF dictionary: association list from names to objects. -/
abbrev Dict := List (String × Obj)

/-- The per-source reference-translation table: association list from
source references to destination references (Go:
`map[pdf.ObjectReference]pdf.ObjectReference`). -/
abbrev Table := List (ObjRef × ObjRef)

/-- Association-list lookup (Go map read). -/
def alGet {α β : Type} [DecidableEq α] (l : List (α × β)) (k : α) : Option β :=
  (l.find? (fun p => decide (p.1 = k))).map (fun p => p.2)

/-- Association-list update (Go map assignment): replace the binding if
the key is present, otherwise add a new binding. -/
def alSet {α β : Type} [DecidableEq α] (l : List (α × β)) (k : α) (v : β) : List (α × β) :=
  if (alGet l k).isSome then l.map (fun p => if p.1 = k then (k, v) else p)
  else (k, v) :: l

/-- Modelled from the spec: the Document-Handle object store of the
external pdf collaborator.  `objs` is the slot list (newest binding
first, so an overwrite shadows the old binding), `nextId` the next free
object id, `root` the store's `Root` reference field. -/
structure Store where
  objs : List (ObjRef × Obj)
  nextId : Nat
  root : ObjRef

/-- Modelled from the spec: `Get(ref) → Object`; an unbound reference
resolves to Null. -/
def storeGet (s : Store) (r : ObjRef) : Obj :=
  match alGet s.objs r with
  | some o => o
  | none => Obj.null

/-- Modelled from the spec: `Add(obj)` with a fresh reference — allocate
the next free reference and bind the object to it. -/
def addFresh (s : Store) (o : Obj) : ObjRef × Store :=
  ((s.nextId, 0),
   { objs := ((s.nextId, 0), o) :: s.objs, nextId := s.nextId + 1, root := s.root })

/-- Modelled from the spec: `Add(IndirectObject{ref, obj})` — overwrite
the slot named by the supplied reference and return that reference. -/
def addAt (s : Store) (r : ObjRef) (o : Obj) : Store :=
  { objs := (r, o) :: s.objs, nextId := s.nextId, root := s.root }

/-- Modelled from the spec: `Create(path)` yields an empty store.  PDF
object numbering starts at 1. -/
def emptyStore : Store :=
  { objs := [], nextId := 1, root := (0, 0) }

/-- The errors the merge engine can surface.  `outOfFuel` is an artifact
of the fuel-indexed embedding of Go's unbounded recursion and never
occurs for sufficient fuel (`copy_terminates`); `unhandled` is the
`fmt.Errorf("unhandled %T", obj)` error of `copyReferencedObjects`;
`panicAssert site ty` models the run-time panic of a failed Go type
assertion `.(ty)` at the given site; the remaining kinds model the
fallible store operations `Create`, `Open`, `Add` and `Save` of the
Document-Handle contract. -/
inductive Err where
  | outOfFuel : Err
  | unhandled (kind : String) : Err
  | panicAssert (site expected : String) : Err
  | createFail (path : String) : Err
  | openFail (path : String) : Err
  | addFail : Err
  | saveFail : Err
  deriving DecidableEq

/-- Does this error model a Go panic (a crash) rather than a returned
error value? -/
def Err.isPanic : Err → Bool
  | .panicAssert _ _ => true
  | _ => false

mutual

/-- `copyReferencedObjects` from the source, fuel-indexed.  The Go
function recursively deep-copies `o` from `src` into `dst`, translating
every reference through the table `t`: a reference already in the table
returns its mapping immediately; a new reference first reserves a Null
placeholder slot in `dst` and pre-registers the mapping before recursing
into the referenced object, then overwrites the placeholder slot with
the copied content; Dictionary, Array and Stream recurse into their
members in order; Name, Integer, String and Real are returned as-is; any
other kind (only Null remains) hits the `default` branch and yields the
`unhandled` error. -/
def copyO : Nat → Store → Store → Table → Obj → Except Err (Table × Store × Obj)
  | 0, _, _, _, _ => .error .outOfFuel
  | _ + 1, _, dst, t, .name s => .ok (t, dst, .name s)
  | _ + 1, _, dst, t, .int n => .ok (t, dst, .int n)
  | _ + 1, _, dst, t, .real v => .ok (t, dst, .real v)
  | _ + 1, _, dst, t, .str s => .ok (t, dst, .str s)
  | _ + 1, _, _, _, .null => .error (.unhandled "pdf.Null")
  | fuel + 1, src, dst, t, .ref i g =>
    match alGet t (i, g) with
    | some d => .ok (t, dst, .ref d.1 d.2)
    | none =>
      let pr := addFresh dst Obj.null
      let t1 := alSet t (i, g) pr.1
      match copyO fuel src pr.2 t1 (storeGet src (i, g)) with
      | .error e => .error e
      | .ok (t2, dst2, newObj) =>
        .ok (alSet t2 (i, g) pr.1, addAt dst2 pr.1 newObj, .ref pr.1.1 pr.1.2)
  | fuel + 1, src, dst, t, .dict es =>
    match copyEntries fuel src dst t es with
    | .error e => .error e
    | .ok (t2, dst2, es2) => .ok (t2, dst2, .dict es2)
  | fuel + 1, src, dst, t, .arr xs =>
    match copyArr fuel src dst t xs with
    | .error e => .error e
    | .ok (t2, dst2, xs2) => .ok (t2, dst2, .arr xs2)
  | fuel + 1, src, dst, t, .stream es payload =>
    match copyEntries fuel src dst t es with
    | .error e => .error e
    | .ok (t2, dst2, es2) => .ok (t2, dst2, .stream es2 payload)
termination_by structural fuel _ _ _ _ => fuel

/-- The Dictionary/Stream branch of `copyReferencedObjects`: copy every
entry's value in order, threading the table and the destination. -/
def copyEntries : Nat → Store → Store → Table → List (String × Obj) →
    Except Err (Table × Store × List (String × Obj))
  | _, _, dst, t, [] => .ok (t, dst, [])
  | 0, _, _, _, _ :: _ => .error .outOfFuel
  | fuel + 1, src, dst, t, (k, v) :: rest =>
    match copyO fuel src dst t v with
    | .error e => .error e
    | .ok (t1, dst1, v1) =>
      match copyEntries fuel src dst1 t1 rest with
      | .error e => .error e
      | .ok (t2, dst2, rest2) => .ok (t2, dst2, (k, v1) :: rest2)
termination_by structural fuel _ _ _ _ => fuel

/-- The Array branch of `copyReferencedObjects`: copy every element in
order, threading the table and the destination. -/
def copyArr : Nat → Store → Store → Table → List Obj →
    Except Err (Table × Store × List Obj)
  | _, _, dst, t, [] => .ok (t, dst, [])
  | 0, _, _, _, _ :: _ => .error .outOfFuel
  | fuel + 1, src, dst, t, v :: rest =>
    match copyO fuel src dst t v with
    | .error e => .error e
    | .ok (t1, dst1, v1) =>
      match copyArr fuel src dst1 t1 rest with
      | .error e => .error e
      | .ok (t2, dst2, rest2) => .ok (t2, dst2, v1 :: rest2)
termination_by structural fuel _ _ _ _ => fuel

end

mutual

/-- Size of an object, used only for the fuel bound of the embedding:
scalars weigh 1, a reference weighs 2, a composite weighs 1 plus its
members. -/
def sizeO : Obj → Nat
  | .null => 1
  | .name _ => 1
  | .int _ => 1
  | .real _ => 1
  | .str _ => 1
  | .ref _ _ => 2
  | .dict es => 1 + sizeE es
  | .arr xs => 1 + sizeL xs
  | .stream es _ => 1 + sizeE es

/-- Total size of dictionary entries (one step per entry). -/
def sizeE : List (String × Obj) → Nat
  | [] => 0
  | (_, v) :: rest => 1 + sizeO v + sizeE rest

/-- Total size of array elements (one step per element). -/
def sizeL : List Obj → Nat
  | [] => 0
  | v :: rest => 1 + sizeO v + sizeL rest

end

/-- Weight of the source slots (from the given slot-reference list) that
are not yet in the translation table: each costs one recursion step plus
the size of the object it denotes. -/
def phiRefs (src : Store) (t : Table) : List ObjRef → Nat
  | [] => 0
  | r :: rest =>
    (if (alGet t r).isSome then 0 else 1 + sizeO (storeGet src r)) + phiRefs src t rest

/-- Weight of all source slots not yet in the translation table. -/
def phiTab (src : Store) (t : Table) : Nat :=
  phiRefs src t (src.objs.map (fun p => p.1))

/-- The per-catalog loop body of `mergePageTrees` from the source, as a
recursion over the remaining catalogs.  For each catalog, in order: read
its `Pages` entry and assert it is a reference (Go
`catalog["Pages"].(pdf.ObjectReference)`); append it to the kids; fetch
the referenced object and assert it is a dictionary; set its `Parent`
field to the reserved new-root reference and write it back to the same
reference; assert its `Count` entry is an integer and add it to the
running total. -/
def mptLoop (root : ObjRef) : Store → List Dict → List Obj → Int →
    Except Err (Store × List Obj × Int)
  | s, [], kids, cnt => .ok (s, kids, cnt)
  | s, c :: rest, kids, cnt =>
    match alGet c "Pages" with
    | some (.ref i g) =>
      let kids := kids ++ [Obj.ref i g]
      match storeGet s (i, g) with
      | .dict pages =>
        let pages := alSet pages "Parent" (Obj.ref root.1 root.2)
        let s := addAt s (i, g) (.dict pages)
        match alGet pages "Count" with
        | some (.int n) => mptLoop root s rest kids (cnt + n)
        | _ => .error (.panicAssert "mergePageTrees.Count" "pdf.Integer")
      | _ => .error (.panicAssert "mergePageTrees.pages" "pdf.Dictionary")
    | _ => .error (.panicAssert "mergePageTrees.Pages" "pdf.ObjectReference")

/-- `mergePageTrees` from the source: reserve a placeholder reference
for the new page-tree root, run the per-catalog loop, then overwrite the
placeholder with the dictionary `{Type: Pages, Kids: kids, Count: n}`
and return its reference. -/
def mergePageTrees (s : Store) (catalogs : List Dict) : Except Err (ObjRef × Store) :=
  let pr := addFresh s Obj.null
  match mptLoop pr.1 pr.2 catalogs [] 0 with
  | .error e => .error e
  | .ok (s2, kids, cnt) =>
    .ok (pr.1, addAt s2 pr.1 (.dict
      [("Type", Obj.name "Pages"), ("Kids", Obj.arr kids), ("Count", Obj.int cnt)]))

/-- The orchestrator states of `MergeFiles`, recorded as a trace. -/
inductive Ev where
  | created : Ev
  | opened (path : String) : Ev
  | copied (path : String) : Ev
  | treesMerged : Ev
  | catalogInstalled : Ev
  | saved : Ev
  deriving DecidableEq

/-- The observable outcome of a `MergeFiles` run: the result (the final
destination store on success), the source paths whose open succeeded,
the source paths closed by the deferred cleanup before returning, and
the state trace. -/
structure MergeOut where
  result : Except Err Store
  opened : List String
  closed : List String
  trace : List Ev

/-- The catalog-collection loop of `MergeFiles`: for each recorded root,
fetch it from the destination and assert it is a dictionary (Go
`merged.Get(root).(pdf.Dictionary)`). -/
def getCatalogs (s : Store) : List ObjRef → Except Err (List Dict)
  | [] => .ok []
  | r :: rest =>
    match storeGet s r with
    | .dict d =>
      match getCatalogs s rest with
      | .error e => .error e
      | .ok ds => .ok (d :: ds)
    | _ => .error (.panicAssert "MergeFiles.catalog" "pdf.Dictionary")

/-- Fuel that `copy_terminates` proves sufficient for copying `o`:
the size of `o` plus the total weight of the source slots not yet in the
translation table. -/
def phi (src : Store) (t : Table) (o : Obj) : Nat :=
  sizeO o + phiTab src t

/-- The tail of `MergeFiles` after the per-source loop: collect the
copied catalogs, merge the page trees, install the new catalog as the
destination root, and save.  Every exit path closes all opened sources
(the Go `defer` loop over `closers`). -/
def mfFinish (saveOk : Bool) (merged : Store) (roots : List ObjRef)
    (opened : List String) (tr : List Ev) : MergeOut :=
  match getCatalogs merged roots with
  | .error e => { result := .error e, opened := opened, closed := opened, trace := tr }
  | .ok catalogs =>
    match mergePageTrees merged catalogs with
    | .error e => { result := .error e, opened := opened, closed := opened, trace := tr }
    | .ok (ptRef, merged) =>
      let tr := tr ++ [Ev.treesMerged]
      let pr := addFresh merged (.dict
        [("Type", Obj.name "Catalog"), ("Pages", Obj.ref ptRef.1 ptRef.2)])
      let merged : Store := { objs := pr.2.objs, nextId := pr.2.nextId, root := pr.1 }
      let tr := tr ++ [Ev.catalogInstalled]
      if saveOk then
        { result := .ok merged, opened := opened, closed := opened, trace := tr ++ [Ev.saved] }
      else
        { result := .error .saveFail, opened := opened, closed := opened, trace := tr }

/-- The per-source loop of `MergeFiles`: open each source in order (an
open failure aborts, naming the path), copy its root object into the
destination with a fresh empty translation table, assert the copy result
is a reference (Go `root.(pdf.ObjectReference)`), record it and set the
destination root to it.  A source is given as its path plus the opened
store, or `none` when opening it fails. -/
def mfLoop (saveOk : Bool) : List (String × Option Store) → Store → List ObjRef →
    List String → List Ev → MergeOut
  | [], merged, roots, opened, tr => mfFinish saveOk merged roots opened tr
  | (fn, none) :: _, _, _, opened, tr =>
    { result := .error (.openFail fn), opened := opened, closed := opened, trace := tr }
  | (fn, some file) :: rest, merged, roots, opened, tr =>
    let opened := opened ++ [fn]
    let tr := tr ++ [Ev.opened fn]
    match copyO (phi file [] (.ref file.root.1 file.root.2) + 1) file merged []
        (.ref file.root.1 file.root.2) with
    | .error e => { result := .error e, opened := opened, closed := opened, trace := tr }
    | .ok (_, merged, o) =>
      match o with
      | .ref i g =>
        mfLoop saveOk rest
          { objs := merged.objs, nextId := merged.nextId, root := (i, g) }
          (roots ++ [(i, g)]) opened (tr ++ [Ev.copied fn])
      | _ =>
        { result := .error (.panicAssert "MergeFiles.root" "pdf.ObjectReference"),
          opened := opened, closed := opened, trace := tr }

/-- `MergeFiles` from the source.  `createOk` models whether
`pdf.Create(dest)` succeeds and `saveOk` whether the final
`merged.Save()` succeeds; each source path comes with the store
`pdf.Open` would yield, or `none` when that open fails. -/
def mergeFiles (createOk saveOk : Bool) (dest : String)
    (sources : List (String × Option Store)) : MergeOut :=
  if createOk then mfLoop saveOk sources emptyStore [] [] [Ev.created]
  else { result := .error (.createFail dest), opened := [], closed := [], trace := [] }

theorem alGet_cons {α β : Type} [DecidableEq α] (k' : α) (v : β) (l : List (α × β)) (k : α) :
    alGet ((k', v) :: l) k = if k' = k then some v else alGet l k := by
  by_cases h : k' = k <;> simp [alGet, List.find?_cons, h]

theorem alGet_eq_none_iff {α β : Type} [DecidableEq α] (l : List (α × β)) (k : α) :
    alGet l k = none ↔ k ∉ l.map (fun p => p.1) := by
  induction l with
  | nil => simp [alGet]
  | cons q l ih =>
    rcases q with ⟨a, b⟩
    rw [alGet_cons]
    by_cases h : a = k
    · simp [h]
    · rw [if_neg h, ih]
      simp [List.mem_cons, Ne.symm h]

theorem alGet_map_replace_self {α β : Type} [DecidableEq α] (l : List (α × β)) (k : α) (v : β) :
    alGet (l.map (fun p => if p.1 = k then (k, v) else p)) k =
      (alGet l k).map (fun _ => v) := by
  induction l with
  | nil => simp [alGet]
  | cons q l ih =>
    rcases q with ⟨a, b⟩
    by_cases ha : a = k
    · simp only [List.map_cons, if_pos ha, alGet_cons, if_pos rfl, if_pos ha]
      rfl
    · simp only [List.map_cons, if_neg ha, alGet_cons, if_neg ha, ih]

theorem alGet_map_replace_ne {α β : Type} [DecidableEq α] (l : List (α × β)) (k k' : α) (v : β)
    (h : k' ≠ k) :
    alGet (l.map (fun p => if p.1 = k then (k, v) else p)) k' = alGet l k' := by
  induction l with
  | nil => simp
  | cons q l ih =>
    rcases q with ⟨a, b⟩
    by_cases ha : a = k
    · subst ha
      simp only [List.map_cons, eq_self_iff_true, if_true, alGet_cons, if_neg (Ne.symm h), ih]
    · simp only [List.map_cons, if_neg ha, alGet_cons, ih]

theorem alGet_set_self {α β : Type} [DecidableEq α] (l : List (α × β)) (k : α) (v : β) :
    alGet (alSet l k v) k = some v := by
  unfold alSet
  split
  · rename_i h
    rw [alGet_map_replace_self]
    rcases Option.isSome_iff_exists.1 h with ⟨w, hw⟩
    rw [hw]
    rfl
  · rw [alGet_cons, if_pos rfl]

theorem alGet_set_ne {α β : Type} [DecidableEq α] (l : List (α × β)) (k k' : α) (v : β)
    (h : k' ≠ k) : alGet (alSet l k v) k' = alGet l k' := by
  unfold alSet
  split
  · rw [alGet_map_replace_ne l k k' v h]
  · rw [alGet_cons, if_neg (Ne.symm h)]

theorem alSet_of_none {α β : Type} [DecidableEq α] (l : List (α × β)) (k : α) (v : β)
    (h : alGet l k = none) : alSet l k v = (k, v) :: l := by
  unfold alSet
  rw [if_neg (by simp [h])]

theorem map_replace_eq_self {α β : Type} [DecidableEq α] (l : List (α × β)) (k : α) (v : β)
    (h : alGet l k = none) :
    l.map (fun p => if p.1 = k then (k, v) else p) = l := by
  induction l with
  | nil => rfl
  | cons q l ih =>
    rcases q with ⟨a, b⟩
    rw [alGet_cons] at h
    by_cases ha : a = k
    · rw [if_pos ha] at h
      simp at h
    · rw [if_neg ha] at h
      simp only [List.map_cons, if_neg ha, ih h]

theorem alSet_of_isSome {α β : Type} [DecidableEq α] (l : List (α × β)) (k : α) (v : β)
    (h : (alGet l k).isSome) :
    alSet l k v = l.map (fun p => if p.1 = k then (k, v) else p) := by
  unfold alSet
  rw [if_pos h]

theorem alSet_idem {α β : Type} [DecidableEq α] (l : List (α × β)) (k : α) (v : β) :
    alSet (alSet l k v) k v = alSet l k v := by
  have h2 : (alGet (alSet l k v) k).isSome := by rw [alGet_set_self]; rfl
  by_cases h : (alGet l k).isSome
  · have e1 := alSet_of_isSome l k v h
    rw [alSet_of_isSome _ _ _ h2, e1, List.map_map]
    apply List.map_congr_left
    intro p _
    by_cases hp : p.1 = k <;> simp [hp, Function.comp]
  · have hn : alGet l k = none := Option.not_isSome_iff_eq_none.1 h
    have e1 := alSet_of_none l k v hn
    rw [alSet_of_isSome _ _ _ h2, e1]
    simp only [List.map_cons, if_pos rfl]
    rw [map_replace_eq_self l k v hn]
    simp [e1]

theorem keys_alSet_of_isSome {α β : Type} [DecidableEq α] (l : List (α × β)) (k : α) (v : β)
    (h : (alGet l k).isSome) :
    (alSet l k v).map (fun p => p.1) = l.map (fun p => p.1) := by
  unfold alSet
  rw [if_pos h, List.map_map]
  apply List.map_congr_left
  intro p _
  by_cases hp : p.1 = k <;> simp [hp, Function.comp]

theorem keys_alSet_of_none {α β : Type} [DecidableEq α] (l : List (α × β)) (k : α) (v : β)
    (h : alGet l k = none) :
    (alSet l k v).map (fun p => p.1) = k :: l.map (fun p => p.1) := by
  rw [alSet_of_none l k v h]
  simp

theorem length_alSet_of_isSome {α β : Type} [DecidableEq α] (l : List (α × β)) (k : α) (v : β)
    (h : (alGet l k).isSome) : (alSet l k v).length = l.length := by
  unfold alSet
  rw [if_pos h, List.length_map]

theorem length_alSet_of_none {α β : Type} [DecidableEq α] (l : List (α × β)) (k : α) (v : β)
    (h : alGet l k = none) : (alSet l k v).length = l.length + 1 := by
  rw [alSet_of_none l k v h, List.length_cons]

theorem storeGet_addAt_self (s : Store) (r : ObjRef) (o : Obj) :
    storeGet (addAt s r o) r = o := by
  simp [storeGet, addAt, alGet_cons]

theorem storeGet_addAt_ne (s : Store) (r r' : ObjRef) (o : Obj) (h : r' ≠ r) :
    storeGet (addAt s r o) r' = storeGet s r' := by
  unfold storeGet addAt
  simp only [alGet_cons]
  rw [if_neg (Ne.symm h)]

theorem storeGet_not_mem (s : Store) (r : ObjRef)
    (h : r ∉ s.objs.map (fun p => p.1)) : storeGet s r = Obj.null := by
  simp [storeGet, (alGet_eq_none_iff s.objs r).2 h]

theorem addFresh_fst (s : Store) (o : Obj) : (addFresh s o).1 = (s.nextId, 0) := rfl

theorem addFresh_nextId (s : Store) (o : Obj) : (addFresh s o).2.nextId = s.nextId + 1 := rfl

theorem storeGet_addFresh_ne (s : Store) (o : Obj) (r : ObjRef) (h : r ≠ (s.nextId, 0)) :
    storeGet (addFresh s o).2 r = storeGet s r := by
  unfold storeGet addFresh
  simp only [alGet_cons]
  rw [if_neg (Ne.symm h)]

theorem storeGet_addFresh_self (s : Store) (o : Obj) :
    storeGet (addFresh s o).2 (s.nextId, 0) = o := by
  simp [storeGet, addFresh, alGet_cons]

/-- Table preservation: every binding of `t` is still present in `t'`.
This is how the Go code uses the mutated `refs` map: bindings are only
ever added, never removed or changed. -/
def TabLe (t t' : Table) : Prop :=
  ∀ x d, alGet t x = some d → alGet t' x = some d

theorem tabLe_refl (t : Table) : TabLe t t := fun _ _ h => h

theorem tabLe_trans {t1 t2 t3 : Table} (h1 : TabLe t1 t2) (h2 : TabLe t2 t3) :
    TabLe t1 t3 :=
  fun x d h => h2 x d (h1 x d h)

theorem TabLe.set_of_none {t : Table} {r : ObjRef} (v : ObjRef)
    (h : alGet t r = none) : TabLe t (alSet t r v) := by
  intro x d hx
  by_cases hxr : x = r
  · subst hxr
    rw [hx] at h
    exact absurd h (by simp)
  · rw [alGet_set_ne t r x v hxr]
    exact hx

theorem TabLe.set_of_some {t : Table} {r v : ObjRef}
    (h : alGet t r = some v) : TabLe t (alSet t r v) := by
  intro x d hx
  by_cases hxr : x = r
  · subst hxr
    rw [hx] at h
    rw [Option.some_inj] at h
    rw [h]
    exact alGet_set_self t x v
  · rw [alGet_set_ne t r x v hxr]
    exact hx

/-- The state invariant of one `copyReferencedObjects` call, relating
destination store and translation table before and after: the table only
grows (old bindings survive), the destination's allocation counter only
grows, no destination slot that existed before the call is altered, the
number of fresh allocations equals the number of new table bindings, and
distinctness of the table's keys is preserved. -/
def CopyInv (dst : Store) (t : Table) (dst' : Store) (t' : Table) : Prop :=
  TabLe t t' ∧ dst.nextId ≤ dst'.nextId ∧
  (∀ R : ObjRef, R.1 < dst.nextId → storeGet dst' R = storeGet dst R) ∧
  dst'.nextId + t.length = dst.nextId + t'.length ∧
  ((t.map (fun p => p.1)).Nodup → (t'.map (fun p => p.1)).Nodup)

theorem copyInv_refl {dst : Store} {t : Table} : CopyInv dst t dst t :=
  ⟨tabLe_refl t, Nat.le_refl _, fun _ _ => rfl, rfl, id⟩

theorem copyInv_trans {dst dst1 dst2 : Store} {t t1 t2 : Table}
    (h1 : CopyInv dst t dst1 t1) (h2 : CopyInv dst1 t1 dst2 t2) :
    CopyInv dst t dst2 t2 := by
  obtain ⟨a1, b1, c1, d1, e1⟩ := h1
  obtain ⟨a2, b2, c2, d2, e2⟩ := h2
  refine ⟨tabLe_trans a1 a2, Nat.le_trans b1 b2, ?_, by omega, fun h => e2 (e1 h)⟩
  intro R hR
  rw [c2 R (Nat.lt_of_lt_of_le hR b1), c1 R hR]

theorem copy_inv :
    ∀ fuel : Nat,
      (∀ src dst t o t' dst' o', copyO fuel src dst t o = .ok (t', dst', o') →
        CopyInv dst t dst' t') ∧
      (∀ src dst t es t' dst' es', copyEntries fuel src dst t es = .ok (t', dst', es') →
        CopyInv dst t dst' t') ∧
      (∀ src dst t xs t' dst' xs', copyArr fuel src dst t xs = .ok (t', dst', xs') →
        CopyInv dst t dst' t') := by
  intro fuel
  induction fuel with
  | zero =>
    refine ⟨?_, ?_, ?_⟩
    · intro src dst t o t' dst' o' h
      simp [copyO] at h
    · intro src dst t es t' dst' es' h
      cases es with
      | nil =>
        simp only [copyEntries, Except.ok.injEq, Prod.mk.injEq] at h
        obtain ⟨h1, h2, _⟩ := h
        subst h1; subst h2
        exact copyInv_refl
      | cons kv rest =>
        rcases kv with ⟨k, v⟩
        simp [copyEntries, copyO] at h
    · intro src dst t xs t' dst' xs' h
      cases xs with
      | nil =>
        simp only [copyArr, Except.ok.injEq, Prod.mk.injEq] at h
        obtain ⟨h1, h2, _⟩ := h
        subst h1; subst h2
        exact copyInv_refl
      | cons v rest =>
        simp [copyArr, copyO] at h
  | succ n ih =>
    obtain ⟨ihO, ihE, ihA⟩ := ih
    have hO : ∀ src dst t o t' dst' o', copyO (n + 1) src dst t o = .ok (t', dst', o') →
        CopyInv dst t dst' t' := by
      intro src dst t o t' dst' o' h
      cases o with
      | name s =>
        simp only [copyO, Except.ok.injEq, Prod.mk.injEq] at h
        obtain ⟨h1, h2, _⟩ := h
        subst h1; subst h2
        exact copyInv_refl
      | int m =>
        simp only [copyO, Except.ok.injEq, Prod.mk.injEq] at h
        obtain ⟨h1, h2, _⟩ := h
        subst h1; subst h2
        exact copyInv_refl
      | real v =>
        simp only [copyO, Except.ok.injEq, Prod.mk.injEq] at h
        obtain ⟨h1, h2, _⟩ := h
        subst h1; subst h2
        exact copyInv_refl
      | str s =>
        simp only [copyO, Except.ok.injEq, Prod.mk.injEq] at h
        obtain ⟨h1, h2, _⟩ := h
        subst h1; subst h2
        exact copyInv_refl
      | null => simp [copyO] at h
      | dict es =>
        cases hc : copyEntries n src dst t es with
        | error e => simp [copyO, hc] at h
        | ok val =>
          rcases val with ⟨t2, dst2, es2⟩
          simp only [copyO, hc, Except.ok.injEq, Prod.mk.injEq] at h
          obtain ⟨h1, h2, _⟩ := h
          subst h1; subst h2
          exact ihE src dst t es _ _ _ hc
      | arr xs =>
        cases hc : copyArr n src dst t xs with
        | error e => simp [copyO, hc] at h
        | ok val =>
          rcases val with ⟨t2, dst2, xs2⟩
          simp only [copyO, hc, Except.ok.injEq, Prod.mk.injEq] at h
          obtain ⟨h1, h2, _⟩ := h
          subst h1; subst h2
          exact ihA src dst t xs _ _ _ hc
      | stream es payload =>
        cases hc : copyEntries n src dst t es with
        | error e => simp [copyO, hc] at h
        | ok val =>
          rcases val with ⟨t2, dst2, es2⟩
          simp only [copyO, hc, Except.ok.injEq, Prod.mk.injEq] at h
          obtain ⟨h1, h2, _⟩ := h
          subst h1; subst h2
          exact ihE src dst t es _ _ _ hc
      | ref i g =>
        cases hal : alGet t (i, g) with
        | some d =>
          simp only [copyO, hal, Except.ok.injEq, Prod.mk.injEq] at h
          obtain ⟨h1, h2, _⟩ := h
          subst h1; subst h2
          exact copyInv_refl
        | none =>
          cases hc : copyO n src (addFresh dst Obj.null).2
              (alSet t (i, g) (dst.nextId, 0)) (storeGet src (i, g)) with
          | error e => simp [copyO, hal, addFresh_fst, hc] at h
          | ok val =>
            rcases val with ⟨t2, dst2, newObj⟩
            simp only [copyO, hal, addFresh_fst, hc, Except.ok.injEq, Prod.mk.injEq] at h
            obtain ⟨h1, h2, _⟩ := h
            subst h1; subst h2
            have step1 : CopyInv dst t (addFresh dst Obj.null).2
                (alSet t (i, g) (dst.nextId, 0)) := by
              refine ⟨TabLe.set_of_none _ hal, by rw [addFresh_nextId]; omega, ?_, ?_, ?_⟩
              · intro R hR
                exact storeGet_addFresh_ne dst Obj.null R
                  (fun he => by rw [he] at hR; exact absurd hR (by simp))
              · rw [addFresh_nextId, length_alSet_of_none t (i, g) _ hal]
                omega
              · intro hnd
                rw [keys_alSet_of_none t (i, g) _ hal]
                exact List.Nodup.cons ((alGet_eq_none_iff t (i, g)).1 hal) hnd
            have step2 := ihO src _ _ _ _ _ _ hc
            have h12 := copyInv_trans step1 step2
            obtain ⟨a12, b12, c12, d12, e12⟩ := h12
            have hsome : alGet t2 (i, g) = some (dst.nextId, 0) :=
              step2.1 (i, g) (dst.nextId, 0) (alGet_set_self t (i, g) (dst.nextId, 0))
            refine ⟨tabLe_trans a12 (TabLe.set_of_some hsome), ?_, ?_, ?_, ?_⟩
            · simpa [addAt] using b12
            · intro R hR
              rw [storeGet_addAt_ne dst2 (dst.nextId, 0) R newObj
                (fun he => by rw [he] at hR; exact absurd hR (by simp))]
              exact c12 R hR
            · have hlen : (alSet t2 (i, g) (dst.nextId, 0)).length = t2.length :=
                length_alSet_of_isSome t2 (i, g) _ (by rw [hsome]; rfl)
              simp only [addAt, hlen]
              omega
            · intro hnd
              rw [keys_alSet_of_isSome t2 (i, g) _ (by rw [hsome]; rfl)]
              exact e12 hnd
    have hE : ∀ src dst t es t' dst' es',
        copyEntries (n + 1) src dst t es = .ok (t', dst', es') → CopyInv dst t dst' t' := by
      intro src dst t es t' dst' es' h
      cases es with
      | nil =>
        simp only [copyEntries, Except.ok.injEq, Prod.mk.injEq] at h
        obtain ⟨h1, h2, _⟩ := h
        subst h1; subst h2
        exact copyInv_refl
      | cons kv rest =>
        rcases kv with ⟨k, v⟩
        cases hc : copyO n src dst t v with
        | error e => simp [copyEntries, hc] at h
        | ok val =>
          rcases val with ⟨t1, dst1, v1⟩
          cases hr : copyEntries n src dst1 t1 rest with
          | error e => simp [copyEntries, hc, hr] at h
          | ok val2 =>
            rcases val2 with ⟨t2, dst2, rest2⟩
            simp only [copyEntries, hc, hr, Except.ok.injEq, Prod.mk.injEq] at h
            obtain ⟨h1, h2, _⟩ := h
            subst h1; subst h2
            exact copyInv_trans (ihO src dst t v _ _ _ hc) (ihE src dst1 t1 rest _ _ _ hr)
    have hA : ∀ src dst t xs t' dst' xs',
        copyArr (n + 1) src dst t xs = .ok (t', dst', xs') → CopyInv dst t dst' t' := by
      intro src dst t xs t' dst' xs' h
      cases xs with
      | nil =>
        simp only [copyArr, Except.ok.injEq, Prod.mk.injEq] at h
        obtain ⟨h1, h2, _⟩ := h
        subst h1; subst h2
        exact copyInv_refl
      | cons v rest =>
        cases hc : copyO n src dst t v with
        | error e => simp [copyArr, hc] at h
        | ok val =>
          rcases val with ⟨t1, dst1, v1⟩
          cases hr : copyArr n src dst1 t1 rest with
          | error e => simp [copyArr, hc, hr] at h
          | ok val2 =>
            rcases val2 with ⟨t2, dst2, rest2⟩
            simp only [copyArr, hc, hr, Except.ok.injEq, Prod.mk.injEq] at h
            obtain ⟨h1, h2, _⟩ := h
            subst h1; subst h2
            exact copyInv_trans (ihO src dst t v _ _ _ hc) (ihA src dst1 t1 rest _ _ _ hr)
    exact ⟨hO, hE, hA⟩

theorem one_le_sizeO : ∀ o : Obj, 1 ≤ sizeO o := by
  intro o
  cases o <;> simp [sizeO]

theorem phiRefs_mono (src : Store) {t t' : Table} (h : TabLe t t') :
    ∀ L, phiRefs src t' L ≤ phiRefs src t L := by
  intro L
  induction L with
  | nil => exact Nat.le_refl _
  | cons r rest ih =>
    simp only [phiRefs]
    have hhead : (if (alGet t' r).isSome then 0 else 1 + sizeO (storeGet src r)) ≤
        (if (alGet t r).isSome then 0 else 1 + sizeO (storeGet src r)) := by
      cases hle : alGet t r with
      | some d => simp [h r d hle, hle]
      | none => cases alGet t' r <;> simp
    exact Nat.add_le_add hhead ih

theorem phiTab_mono (src : Store) {t t' : Table} (h : TabLe t t') :
    phiTab src t' ≤ phiTab src t :=
  phiRefs_mono src h _

theorem phiRefs_insert (src : Store) {t : Table} {r : ObjRef} (d : ObjRef)
    (h : alGet t r = none) :
    ∀ L, r ∈ L →
      phiRefs src (alSet t r d) L + (1 + sizeO (storeGet src r)) ≤ phiRefs src t L := by
  intro L
  induction L with
  | nil => intro hm; simp at hm
  | cons a rest ih =>
    intro hm
    simp only [phiRefs]
    by_cases har : a = r
    · subst har
      have h1 : alGet (alSet t a d) a = some d := alGet_set_self t a d
      have h2 := phiRefs_mono src (TabLe.set_of_none d h) rest
      simp only [h1, h]
      simp only [Option.isSome_some, Option.isSome_none, if_true]
      simp only [Bool.false_eq_true, if_false]
      omega
    · rw [alGet_set_ne t r a d har]
      have hm' : r ∈ rest := by
        rcases List.mem_cons.1 hm with h1 | h1
        · exact absurd h1.symm har
        · exact h1
      have := ih hm'
      omega

theorem phi_reserve (src : Store) (t : Table) (r d : ObjRef) (h : alGet t r = none) :
    sizeO (storeGet src r) + phiTab src (alSet t r d) ≤ 1 + phiTab src t := by
  by_cases hm : r ∈ src.objs.map (fun p => p.1)
  · have := phiRefs_insert src d h (src.objs.map (fun p => p.1)) hm
    unfold phiTab
    omega
  · rw [storeGet_not_mem src r hm]
    have := phiTab_mono src (TabLe.set_of_none d h)
    simp only [sizeO]
    omega

theorem copy_fuel :
    ∀ fuel : Nat, ∀ src : Store,
      (∀ dst t o, phi src t o ≤ fuel →
        copyO fuel src dst t o ≠ .error .outOfFuel) ∧
      (∀ dst t es, sizeE es + phiTab src t ≤ fuel →
        copyEntries fuel src dst t es ≠ .error .outOfFuel) ∧
      (∀ dst t xs, sizeL xs + phiTab src t ≤ fuel →
        copyArr fuel src dst t xs ≠ .error .outOfFuel) := by
  intro fuel src
  induction fuel with
  | zero =>
    refine ⟨?_, ?_, ?_⟩
    · intro dst t o hphi heq
      have := one_le_sizeO o
      simp only [phi] at hphi
      omega
    · intro dst t es hphi heq
      cases es with
      | nil => simp [copyEntries] at heq
      | cons kv rest =>
        rcases kv with ⟨k, v⟩
        have := one_le_sizeO v
        simp only [sizeE] at hphi
        omega
    · intro dst t xs hphi heq
      cases xs with
      | nil => simp [copyArr] at heq
      | cons v rest =>
        have := one_le_sizeO v
        simp only [sizeL] at hphi
        omega
  | succ n ih =>
    obtain ⟨ihO, ihE, ihA⟩ := ih
    have hO : ∀ dst t o, phi src t o ≤ n + 1 →
        copyO (n + 1) src dst t o ≠ .error .outOfFuel := by
      intro dst t o hphi heq
      cases o with
      | name s => simp [copyO] at heq
      | int m => simp [copyO] at heq
      | real v => simp [copyO] at heq
      | str s => simp [copyO] at heq
      | null => simp [copyO] at heq
      | ref i g =>
        cases hal : alGet t (i, g) with
        | some d => simp [copyO, hal] at heq
        | none =>
          simp only [phi, sizeO] at hphi
          have hbound : phi src (alSet t (i, g) (dst.nextId, 0))
              (storeGet src (i, g)) ≤ n := by
            have := phi_reserve src t (i, g) (dst.nextId, 0) hal
            simp only [phi]
            omega
          cases hc : copyO n src (addFresh dst Obj.null).2
              (alSet t (i, g) (dst.nextId, 0)) (storeGet src (i, g)) with
          | error e =>
            simp only [copyO, hal, addFresh_fst, hc, Except.error.injEq] at heq
            subst heq
            exact ihO _ _ _ hbound hc
          | ok val =>
            rcases val with ⟨t2, dst2, newObj⟩
            simp [copyO, hal, addFresh_fst, hc] at heq
      | dict es =>
        simp only [phi, sizeO] at hphi
        cases hc : copyEntries n src dst t es with
        | error e =>
          simp only [copyO, hc, Except.error.injEq] at heq
          subst heq
          exact ihE _ _ _ (by omega) hc
        | ok val =>
          rcases val with ⟨t2, dst2, es2⟩
          simp [copyO, hc] at heq
      | arr xs =>
        simp only [phi, sizeO] at hphi
        cases hc : copyArr n src dst t xs with
        | error e =>
          simp only [copyO, hc, Except.error.injEq] at heq
          subst heq
          exact ihA _ _ _ (by omega) hc
        | ok val =>
          rcases val with ⟨t2, dst2, xs2⟩
          simp [copyO, hc] at heq
      | stream es payload =>
        simp only [phi, sizeO] at hphi
        cases hc : copyEntries n src dst t es with
        | error e =>
          simp only [copyO, hc, Except.error.injEq] at heq
          subst heq
          exact ihE _ _ _ (by omega) hc
        | ok val =>
          rcases val with ⟨t2, dst2, es2⟩
          simp [copyO, hc] at heq
    have hE : ∀ dst t es, sizeE es + phiTab src t ≤ n + 1 →
        copyEntries (n + 1) src dst t es ≠ .error .outOfFuel := by
      intro dst t es hphi heq
      cases es with
      | nil => simp [copyEntries] at heq
      | cons kv rest =>
        rcases kv with ⟨k, v⟩
        simp only [sizeE] at hphi
        cases hc : copyO n src dst t v with
        | error e =>
          simp only [copyEntries, hc, Except.error.injEq] at heq
          subst heq
          refine ihO dst t v ?_ hc
          simp only [phi]
          omega
        | ok val =>
          rcases val with ⟨t1, dst1, v1⟩
          cases hr : copyEntries n src dst1 t1 rest with
          | error e =>
            simp only [copyEntries, hc, hr, Except.error.injEq] at heq
            subst heq
            have hmono : phiTab src t1 ≤ phiTab src t :=
              phiTab_mono src ((copy_inv n).1 src dst t v _ _ _ hc).1
            refine ihE dst1 t1 rest ?_ hr
            omega
          | ok val2 =>
            rcases val2 with ⟨t2, dst2, rest2⟩
            simp [copyEntries, hc, hr] at heq
    have hA : ∀ dst t xs, sizeL xs + phiTab src t ≤ n + 1 →
        copyArr (n + 1) src dst t xs ≠ .error .outOfFuel := by
      intro dst t xs hphi heq
      cases xs with
      | nil => simp [copyArr] at heq
      | cons v rest =>
        simp only [sizeL] at hphi
        cases hc : copyO n src dst t v with
        | error e =>
          simp only [copyArr, hc, Except.error.injEq] at heq
          subst heq
          refine ihO dst t v ?_ hc
          simp only [phi]
          omega
        | ok val =>
          rcases val with ⟨t1, dst1, v1⟩
          cases hr : copyArr n src dst1 t1 rest with
          | error e =>
            simp only [copyArr, hc, hr, Except.error.injEq] at heq
            subst heq
            have hmono : phiTab src t1 ≤ phiTab src t :=
              phiTab_mono src ((copy_inv n).1 src dst t v _ _ _ hc).1
            refine ihA dst1 t1 rest ?_ hr
            omega
          | ok val2 =>
            rcases val2 with ⟨t2, dst2, rest2⟩
            simp [copyArr, hc, hr] at heq
    exact ⟨hO, hE, hA⟩

theorem copyO_ref_ref :
    ∀ (fuel : Nat) (src dst : Store) (t : Table) (i g : Nat) (t' : Table) (dst' : Store)
      (o' : Obj), copyO fuel src dst t (.ref i g) = .ok (t', dst', o') →
      ∃ j k : Nat, o' = .ref j k := by
  intro fuel src dst t i g t' dst' o' h
  cases fuel with
  | zero => simp [copyO] at h
  | succ n =>
    cases hal : alGet t (i, g) with
    | some d =>
      simp only [copyO, hal, Except.ok.injEq, Prod.mk.injEq] at h
      exact ⟨d.1, d.2, h.2.2.symm⟩
    | none =>
      cases hc : copyO n src (addFresh dst Obj.null).2
          (alSet t (i, g) (dst.nextId, 0)) (storeGet src (i, g)) with
      | error e => simp [copyO, hal, addFresh_fst, hc] at h
      | ok val =>
        rcases val with ⟨t2, dst2, newObj⟩
        simp only [copyO, hal, addFresh_fst, hc, Except.ok.injEq, Prod.mk.injEq] at h
        exact ⟨dst.nextId, 0, h.2.2.symm⟩

theorem copy_err :
    ∀ fuel : Nat,
      (∀ src dst t o e, copyO fuel src dst t o = .error e →
        e = .outOfFuel ∨ e = .unhandled "pdf.Null") ∧
      (∀ src dst t es e, copyEntries fuel src dst t es = .error e →
        e = .outOfFuel ∨ e = .unhandled "pdf.Null") ∧
      (∀ src dst t xs e, copyArr fuel src dst t xs = .error e →
        e = .outOfFuel ∨ e = .unhandled "pdf.Null") := by
  intro fuel
  induction fuel with
  | zero =>
    refine ⟨?_, ?_, ?_⟩
    · intro src dst t o e h
      simp only [copyO, Except.error.injEq] at h
      exact Or.inl h.symm
    · intro src dst t es e h
      cases es with
      | nil => simp [copyEntries] at h
      | cons kv rest =>
        rcases kv with ⟨k, v⟩
        simp only [copyEntries, copyO, Except.error.injEq] at h
        exact Or.inl h.symm
    · intro src dst t xs e h
      cases xs with
      | nil => simp [copyArr] at h
      | cons v rest =>
        simp only [copyArr, copyO, Except.error.injEq] at h
        exact Or.inl h.symm
  | succ n ih =>
    obtain ⟨ihO, ihE, ihA⟩ := ih
    have hO : ∀ src dst t o e, copyO (n + 1) src dst t o = .error e →
        e = .outOfFuel ∨ e = .unhandled "pdf.Null" := by
      intro src dst t o e h
      cases o with
      | name s => simp [copyO] at h
      | int m => simp [copyO] at h
      | real v => simp [copyO] at h
      | str s => simp [copyO] at h
      | null =>
        simp only [copyO, Except.error.injEq] at h
        exact Or.inr h.symm
      | ref i g =>
        cases hal : alGet t (i, g) with
        | some d => simp [copyO, hal] at h
        | none =>
          cases hc : copyO n src (addFresh dst Obj.null).2
              (alSet t (i, g) (dst.nextId, 0)) (storeGet src (i, g)) with
          | error e2 =>
            simp only [copyO, hal, addFresh_fst, hc, Except.error.injEq] at h
            exact h ▸ ihO _ _ _ _ _ hc
          | ok val =>
            rcases val with ⟨t2, dst2, newObj⟩
            simp [copyO, hal, addFresh_fst, hc] at h
      | dict es =>
        cases hc : copyEntries n src dst t es with
        | error e2 =>
          simp only [copyO, hc, Except.error.injEq] at h
          exact h ▸ ihE _ _ _ _ _ hc
        | ok val =>
          rcases val with ⟨t2, dst2, es2⟩
          simp [copyO, hc] at h
      | arr xs =>
        cases hc : copyArr n src dst t xs with
        | error e2 =>
          simp only [copyO, hc, Except.error.injEq] at h
          exact h ▸ ihA _ _ _ _ _ hc
        | ok val =>
          rcases val with ⟨t2, dst2, xs2⟩
          simp [copyO, hc] at h
      | stream es payload =>
        cases hc : copyEntries n src dst t es with
        | error e2 =>
          simp only [copyO, hc, Except.error.injEq] at h
          exact h ▸ ihE _ _ _ _ _ hc
        | ok val =>
          rcases val with ⟨t2, dst2, es2⟩
          simp [copyO, hc] at h
    have hE : ∀ src dst t es e, copyEntries (n + 1) src dst t es = .error e →
        e = .outOfFuel ∨ e = .unhandled "pdf.Null" := by
      intro src dst t es e h
      cases es with
      | nil => simp [copyEntries] at h
      | cons kv rest =>
        rcases kv with ⟨k, v⟩
        cases hc : copyO n src dst t v with
        | error e2 =>
          simp only [copyEntries, hc, Except.error.injEq] at h
          exact h ▸ ihO _ _ _ _ _ hc
        | ok val =>
          rcases val with ⟨t1, dst1, v1⟩
          cases hr : copyEntries n src dst1 t1 rest with
          | error e2 =>
            simp only [copyEntries, hc, hr, Except.error.injEq] at h
            exact h ▸ ihE _ _ _ _ _ hr
          | ok val2 =>
            rcases val2 with ⟨t2, dst2, rest2⟩
            simp [copyEntries, hc, hr] at h
    have hA : ∀ src dst t xs e, copyArr (n + 1) src dst t xs = .error e →
        e = .outOfFuel ∨ e = .unhandled "pdf.Null" := by
      intro src dst t xs e h
      cases xs with
      | nil => simp [copyArr] at h
      | cons v rest =>
        cases hc : copyO n src dst t v with
        | error e2 =>
          simp only [copyArr, hc, Except.error.injEq] at h
          exact h ▸ ihO _ _ _ _ _ hc
        | ok val =>
          rcases val with ⟨t1, dst1, v1⟩
          cases hr : copyArr n src dst1 t1 rest with
          | error e2 =>
            simp only [copyArr, hc, hr, Except.error.injEq] at h
            exact h ▸ ihA _ _ _ _ _ hr
          | ok val2 =>
            rcases val2 with ⟨t2, dst2, rest2⟩
            simp [copyArr, hc, hr] at h
    exact ⟨hO, hE, hA⟩

/-- A small concrete single-page source file: a catalog at reference
(1,0) whose Pages entry points to a page-tree root at (2,0) with one
page. -/
def srcA : Store :=
  { objs := [((1, 0), .dict [("Type", .name "Catalog"), ("Pages", .ref 2 0)]),
             ((2, 0), .dict [("Type", .name "Pages"), ("Kids", .arr []), ("Count", .int 1)])],
    nextId := 3, root := (1, 0) }

/-- A second concrete source file, with two pages. -/
def srcB : Store :=
  { objs := [((1, 0), .dict [("Type", .name "Catalog"), ("Pages", .ref 2 0)]),
             ((2, 0), .dict [("Type", .name "Pages"), ("Kids", .arr []), ("Count", .int 2)])],
    nextId := 3, root := (1, 0) }

/-- A concrete source whose root object is a reference cycle: the
dictionary at (1,0) refers back to itself. -/
def srcCyc : Store :=
  { objs := [((1, 0), .dict [("Self", .ref 1 0)])], nextId := 2, root := (1, 0) }

/-- C1: if the input reference is already in the translation table, the
copy returns the mapped destination reference immediately, leaving table
and destination store untouched; and in general one copy call performs
exactly one destination allocation per new table binding (so each
distinct source reference causes at most one copied object, whatever the
fan-in or cycles), with table keys staying pairwise distinct. -/
theorem claim_C1 :
    (∀ (fuel : Nat) (src dst : Store) (t : Table) (i g : Nat) (d : ObjRef),
      alGet t (i, g) = some d →
      copyO (fuel + 1) src dst t (.ref i g) = .ok (t, dst, .ref d.1 d.2)) ∧
    (∀ (fuel : Nat) (src dst : Store) (t : Table) (o : Obj) (t' : Table) (dst' : Store)
      (o' : Obj), copyO fuel src dst t o = .ok (t', dst', o') →
      dst'.nextId + t.length = dst.nextId + t'.length ∧
      ((t.map (fun p => p.1)).Nodup → (t'.map (fun p => p.1)).Nodup)) := by
  constructor
  · intro fuel src dst t i g d h
    simp [copyO, h]
  · intro fuel src dst t o t' dst' o' h
    have hinv := (copy_inv fuel).1 src dst t o t' dst' o' h
    exact ⟨hinv.2.2.2.1, hinv.2.2.2.2⟩

theorem claim_C1_witness :
    alGet ([((1, 0), (7, 0))] : Table) (1, 0) = some (7, 0) ∧
    copyO 1 emptyStore emptyStore ([((1, 0), (7, 0))] : Table) (.ref 1 0) =
      .ok (([((1, 0), (7, 0))] : Table), emptyStore, .ref 7 0) ∧
    emptyStore.nextId + ([((1, 0), (7, 0))] : Table).length =
      emptyStore.nextId + ([((1, 0), (7, 0))] : Table).length :=
  ⟨rfl, claim_C1.1 0 emptyStore emptyStore ([((1, 0), (7, 0))] : Table) 1 0 (7, 0) rfl,
    (claim_C1.2 1 emptyStore emptyStore ([((1, 0), (7, 0))] : Table) (.ref 1 0)
      ([((1, 0), (7, 0))] : Table) emptyStore (.ref 7 0)
      (claim_C1.1 0 emptyStore emptyStore ([((1, 0), (7, 0))] : Table) 1 0 (7, 0) rfl)).1⟩

/-- C2: the copy engine terminates on every finite source graph,
including cyclic ones: with fuel at least `phi src t o` — a computable
bound — the fuel-indexed embedding never reports fuel exhaustion, so the
Go recursion is bounded and terminates.  The bound shrinks across the
reference case precisely because the placeholder mapping is
pre-registered in the table before the recursive call. -/
theorem claim_C2 :
    ∀ (fuel : Nat) (src dst : Store) (t : Table) (o : Obj),
      phi src t o ≤ fuel → copyO fuel src dst t o ≠ .error .outOfFuel :=
  fun fuel src dst t o h => (copy_fuel fuel src).1 dst t o h

theorem claim_C2_witness :
    phi srcCyc [] (.ref 1 0) ≤ 20 ∧
    copyO 20 srcCyc emptyStore [] (.ref 1 0) ≠ .error .outOfFuel :=
  ⟨by decide, claim_C2 20 srcCyc emptyStore [] (.ref 1 0) (by decide)⟩

/-- C5 counterexample: Null is one of the defined object kinds, yet the
copy engine fails on it with the unsupported-object-kind error, because
the Go type switch has no `pdf.Null` case and Null falls through to the
`default` branch. -/
theorem claim_C5_counterexample :
    copyO 1 emptyStore emptyStore [] Obj.null = .error (.unhandled "pdf.Null") := rfl

/-- C5 amended: the copy engine returns the unsupported-object-kind
error exactly for Null — the one defined kind missing from its type
switch; every unhandled-kind error arising anywhere in a copy names
Null, and Name, Integer, Real and String inputs are returned as-is
without error. -/
theorem claim_C5_amended :
    (∀ (fuel : Nat) (src dst : Store) (t : Table),
      copyO (fuel + 1) src dst t .null = .error (.unhandled "pdf.Null")) ∧
    (∀ (fuel : Nat) (src dst : Store) (t : Table) (o : Obj) (e : Err),
      copyO fuel src dst t o = .error e → (∃ k, e = .unhandled k) →
      e = .unhandled "pdf.Null") ∧
    (∀ (fuel : Nat) (src dst : Store) (t : Table) (s : String),
      copyO (fuel + 1) src dst t (.name s) = .ok (t, dst, .name s)) ∧
    (∀ (fuel : Nat) (src dst : Store) (t : Table) (n : Int),
      copyO (fuel + 1) src dst t (.int n) = .ok (t, dst, .int n)) ∧
    (∀ (fuel : Nat) (src dst : Store) (t : Table) (v : Int),
      copyO (fuel + 1) src dst t (.real v) = .ok (t, dst, .real v)) ∧
    (∀ (fuel : Nat) (src dst : Store) (t : Table) (s : String),
      copyO (fuel + 1) src dst t (.str s) = .ok (t, dst, .str s)) := by
  refine ⟨?_, ?_, ?_, ?_, ?_, ?_⟩
  · intro fuel src dst t
    simp [copyO]
  · intro fuel src dst t o e h hk
    rcases (copy_err fuel).1 src dst t o e h with h1 | h1
    · rcases hk with ⟨k, hk⟩
      rw [hk] at h1
      exact absurd h1 (by simp)
    · exact h1
  · intro fuel src dst t s
    simp [copyO]
  · intro fuel src dst t n
    simp [copyO]
  · intro fuel src dst t v
    simp [copyO]
  · intro fuel src dst t s
    simp [copyO]

theorem claim_C5_witness :
    Err.unhandled "pdf.Null" = .unhandled "pdf.Null" ∧
    copyO 1 emptyStore emptyStore [] (.int 5) = .ok ([], emptyStore, .int 5) :=
  ⟨claim_C5_amended.2.1 1 emptyStore emptyStore [] Obj.null (.unhandled "pdf.Null")
      rfl ⟨"pdf.Null", rfl⟩,
    claim_C5_amended.2.2.2.1 0 emptyStore emptyStore [] 5⟩

/-- The `Pages` reference of a catalog dictionary, when the entry exists
and is a reference. -/
def pagesRefOf (c : Dict) : Option ObjRef :=
  match alGet c "Pages" with
  | some (.ref i g) => some (i, g)
  | _ => none

/-- The object a catalog contributes to the merged Kids array: its
`Pages` entry verbatim. -/
def kidOf (c : Dict) : Obj :=
  (alGet c "Pages").getD Obj.null

/-- The page count a catalog contributes: the integer `Count` entry of
the dictionary its `Pages` reference denotes in the given store
(defaulting to 0 when malformed; the merge only succeeds on inputs where
no default fires). -/
def countIn (s : Store) (c : Dict) : Int :=
  match pagesRefOf c with
  | some r =>
    match storeGet s r with
    | .dict d =>
      match alGet d "Count" with
      | some (.int n) => n
      | _ => 0
    | _ => 0
  | none => 0

/-- Does this catalog have a reference-valued `Pages` entry denoting a
dictionary with an integer `Count` in the given store?  Exactly the
conditions `mergePageTrees` asserts per catalog. -/
def wellFormedCat (s : Store) (c : Dict) : Bool :=
  match pagesRefOf c with
  | some r =>
    match storeGet s r with
    | .dict d =>
      match alGet d "Count" with
      | some (.int _) => true
      | _ => false
    | _ => false
  | none => false

/-- Loop invariant of `mergePageTrees`: relative to the store `s1` as it
was right after reserving the new root placeholder, the current store
`s` differs only at the `Pages` references of the already-processed
catalogs `done`, and each of those slots holds its original dictionary
with only its `Parent` entry set to the new root. -/
def MptInv (s1 : Store) (root : ObjRef) (done : List Dict) (s : Store) : Prop :=
  (∀ R : ObjRef, R ∉ done.filterMap pagesRefOf → storeGet s R = storeGet s1 R) ∧
  (∀ c ∈ done, ∃ r, pagesRefOf c = some r ∧ r ≠ root ∧
    ∃ d, storeGet s1 r = .dict d ∧ (∃ n : Int, alGet d "Count" = some (.int n)) ∧
      storeGet s r = .dict (alSet d "Parent" (.ref root.1 root.2)))

theorem mptLoop_ok (s1 : Store) (root : ObjRef) (hroot : storeGet s1 root = Obj.null) :
    ∀ (rest done : List Dict) (s : Store) (kids : List Obj) (cnt : Int)
      (s2 : Store) (kidsF : List Obj) (cntF : Int),
      MptInv s1 root done s →
      mptLoop root s rest kids cnt = .ok (s2, kidsF, cntF) →
      MptInv s1 root (done ++ rest) s2 ∧
      kidsF = kids ++ rest.map kidOf ∧
      cntF = cnt + (rest.map (countIn s1)).sum := by
  intro rest
  induction rest with
  | nil =>
    intro done s kids cnt s2 kidsF cntF hinv h
    simp only [mptLoop, Except.ok.injEq, Prod.mk.injEq] at h
    obtain ⟨h1, h2, h3⟩ := h
    subst h1; subst h2; subst h3
    refine ⟨by simpa using hinv, by simp, by simp⟩
  | cons c rest ih =>
    intro done s kids cnt s2 kidsF cntF hinv h
    cases hp : alGet c "Pages" with
    | none => simp [mptLoop, hp] at h
    | some po =>
      cases po with
      | null => simp [mptLoop, hp] at h
      | name s0 => simp [mptLoop, hp] at h
      | int n0 => simp [mptLoop, hp] at h
      | real v0 => simp [mptLoop, hp] at h
      | str s0 => simp [mptLoop, hp] at h
      | dict d0 => simp [mptLoop, hp] at h
      | arr x0 => simp [mptLoop, hp] at h
      | stream d0 p0 => simp [mptLoop, hp] at h
      | ref i g =>
        have hprc : pagesRefOf c = some (i, g) := by simp [pagesRefOf, hp]
        have hkidc : kidOf c = Obj.ref i g := by simp [kidOf, hp]
        cases hg : storeGet s (i, g) with
        | dict pages0 =>
          cases hcnt : alGet (alSet pages0 "Parent" (.ref root.1 root.2)) "Count" with
          | none => simp [mptLoop, hp, hg, hcnt] at h
          | some co =>
            cases co with
            | null => simp [mptLoop, hp, hg, hcnt] at h
            | name s0 => simp [mptLoop, hp, hg, hcnt] at h
            | real v0 => simp [mptLoop, hp, hg, hcnt] at h
            | str s0 => simp [mptLoop, hp, hg, hcnt] at h
            | dict d0 => simp [mptLoop, hp, hg, hcnt] at h
            | arr x0 => simp [mptLoop, hp, hg, hcnt] at h
            | stream d0 p0 => simp [mptLoop, hp, hg, hcnt] at h
            | ref i0 g0 => simp [mptLoop, hp, hg, hcnt] at h
            | int n =>
              have hloop : mptLoop root (addAt s (i, g)
                    (.dict (alSet pages0 "Parent" (.ref root.1 root.2)))) rest
                    (kids ++ [Obj.ref i g]) (cnt + n) = .ok (s2, kidsF, cntF) := by
                simpa only [mptLoop, hp, hg, hcnt] using h
              have hcp : ("Count" : String) ≠ "Parent" := by decide
              have hcnt0 : alGet pages0 "Count" = some (.int n) := by
                rw [alGet_set_ne pages0 "Parent" "Count" _ hcp] at hcnt
                exact hcnt
              -- establish the dictionary at (i, g) in terms of s1
              have hfacts : (i, g) ≠ root ∧ ∃ d, storeGet s1 (i, g) = .dict d ∧
                  alGet d "Count" = some (.int n) ∧
                  alSet pages0 "Parent" (.ref root.1 root.2) =
                    alSet d "Parent" (.ref root.1 root.2) := by
                by_cases hR : (i, g) ∈ done.filterMap pagesRefOf
                · rcases List.mem_filterMap.1 hR with ⟨c0, hc0mem, hc0eq⟩
                  rcases hinv.2 c0 hc0mem with ⟨r0, hr0eq, hr0root, d0, hs1d, ⟨n0, hd0c⟩, hcur⟩
                  rw [hr0eq] at hc0eq
                  cases hc0eq
                  rw [hcur] at hg
                  have hpg : pages0 = alSet d0 "Parent" (.ref root.1 root.2) := by
                    cases hg; rfl
                  refine ⟨hr0root, d0, hs1d, ?_, ?_⟩
                  · rw [hpg, alGet_set_ne d0 "Parent" "Count" _ hcp] at hcnt0
                    exact hcnt0
                  · rw [hpg, alSet_idem]
                · have hsame := hinv.1 (i, g) hR
                  rw [hsame] at hg
                  have hir : (i, g) ≠ root := by
                    intro he
                    rw [he, hroot] at hg
                    cases hg
                  exact ⟨hir, pages0, hg, hcnt0, rfl⟩
              rcases hfacts with ⟨hir, d, hs1d, hdcnt, hpgeq⟩
              have hinv' : MptInv s1 root (done ++ [c]) (addAt s (i, g)
                  (.dict (alSet pages0 "Parent" (.ref root.1 root.2)))) := by
                constructor
                · intro R hRmem
                  have hR1 : R ∉ done.filterMap pagesRefOf := by
                    intro hx
                    exact hRmem (by simp [List.filterMap_append, hx])
                  have hR2 : R ≠ (i, g) := by
                    intro hx
                    exact hRmem (by simp [List.filterMap_append, hprc, hx])
                  rw [storeGet_addAt_ne s (i, g) R _ hR2]
                  exact hinv.1 R hR1
                · intro c1 hc1
                  rcases List.mem_append.1 hc1 with hc1d | hc1c
                  · rcases hinv.2 c1 hc1d with ⟨r1, hr1eq, hr1root, d1, hs1d1, hd1c, hcur1⟩
                    by_cases hr1ig : r1 = (i, g)
                    · subst hr1ig
                      refine ⟨(i, g), hr1eq, hr1root, d1, hs1d1, hd1c, ?_⟩
                      rw [storeGet_addAt_self, hpgeq]
                      rw [hs1d] at hs1d1
                      cases hs1d1
                      rfl
                    · refine ⟨r1, hr1eq, hr1root, d1, hs1d1, hd1c, ?_⟩
                      rw [storeGet_addAt_ne s (i, g) r1 _ hr1ig]
                      exact hcur1
                  · have : c1 = c := by simpa using hc1c
                    subst this
                    refine ⟨(i, g), hprc, hir, d, hs1d, ⟨n, hdcnt⟩, ?_⟩
                    rw [storeGet_addAt_self, hpgeq]
              have hrest := ih (done ++ [c]) _ _ _ _ _ _ hinv' hloop
              refine ⟨by simpa [List.append_assoc] using hrest.1, ?_, ?_⟩
              · rw [hrest.2.1]
                simp [hkidc]
              · rw [hrest.2.2]
                have hcic : countIn s1 c = n := by
                  simp [countIn, hprc, hs1d, hdcnt]
                rw [List.map_cons, List.sum_cons, hcic]
                omega
        | null => simp [mptLoop, hp] at h; rw [hg] at h; simp at h
        | name s0 => simp [mptLoop, hp] at h; rw [hg] at h; simp at h
        | int n0 => simp [mptLoop, hp] at h; rw [hg] at h; simp at h
        | real v0 => simp [mptLoop, hp] at h; rw [hg] at h; simp at h
        | str s0 => simp [mptLoop, hp] at h; rw [hg] at h; simp at h
        | arr x0 => simp [mptLoop, hp] at h; rw [hg] at h; simp at h
        | stream d0 p0 => simp [mptLoop, hp] at h; rw [hg] at h; simp at h
        | ref i0 g0 => simp [mptLoop, hp] at h; rw [hg] at h; simp at h

theorem mptLoop_err (root : ObjRef) :
    ∀ (rest : List Dict) (s : Store) (kids : List Obj) (cnt : Int) (e : Err),
      mptLoop root s rest kids cnt = .error e →
      e = .panicAssert "mergePageTrees.Pages" "pdf.ObjectReference" ∨
      e = .panicAssert "mergePageTrees.pages" "pdf.Dictionary" ∨
      e = .panicAssert "mergePageTrees.Count" "pdf.Integer" := by
  intro rest
  induction rest with
  | nil => intro s kids cnt e h; simp [mptLoop] at h
  | cons c rest ih =>
    intro s kids cnt e h
    simp only [mptLoop] at h
    split at h
    · split at h
      · split at h
        · exact ih _ _ _ _ h
        · simp only [Except.error.injEq] at h
          exact Or.inr (Or.inr h.symm)
      · simp only [Except.error.injEq] at h
        exact Or.inr (Or.inl h.symm)
    · simp only [Except.error.injEq] at h
      exact Or.inl h.symm

theorem mergePageTrees_err (s : Store) (cats : List Dict) (e : Err)
    (h : mergePageTrees s cats = .error e) :
    e = .panicAssert "mergePageTrees.Pages" "pdf.ObjectReference" ∨
    e = .panicAssert "mergePageTrees.pages" "pdf.Dictionary" ∨
    e = .panicAssert "mergePageTrees.Count" "pdf.Integer" := by
  simp only [mergePageTrees, addFresh_fst] at h
  cases hl : mptLoop (s.nextId, 0) (addFresh s Obj.null).2 cats [] 0 with
  | error e2 =>
    rw [hl] at h
    simp only [Except.error.injEq] at h
    exact h ▸ mptLoop_err (s.nextId, 0) cats _ [] 0 e2 hl
  | ok val =>
    rcases val with ⟨s2, kids, cnt⟩
    rw [hl] at h
    simp at h

theorem mergePageTrees_spec (s : Store) (cats : List Dict) (r : ObjRef) (s' : Store)
    (h : mergePageTrees s cats = .ok (r, s')) :
    r = (s.nextId, 0) ∧
    storeGet s' r = .dict [("Type", Obj.name "Pages"),
      ("Kids", Obj.arr (cats.map kidOf)),
      ("Count", Obj.int ((cats.map (countIn s)).sum))] ∧
    (∀ c ∈ cats, ∃ pr d, pagesRefOf c = some pr ∧ pr ≠ r ∧ storeGet s pr = .dict d ∧
      (∃ n : Int, alGet d "Count" = some (.int n)) ∧
      storeGet s' pr = .dict (alSet d "Parent" (.ref r.1 r.2))) ∧
    (∀ R : ObjRef, R ≠ r → R ∉ cats.filterMap pagesRefOf → storeGet s' R = storeGet s R) := by
  simp only [mergePageTrees, addFresh_fst] at h
  cases hl : mptLoop (s.nextId, 0) (addFresh s Obj.null).2 cats [] 0 with
  | error e2 => rw [hl] at h; simp at h
  | ok val =>
    rcases val with ⟨s2, kids, cnt⟩
    rw [hl] at h
    simp only [Except.ok.injEq, Prod.mk.injEq] at h
    obtain ⟨hr, hs'⟩ := h
    have hroot1 : storeGet (addFresh s Obj.null).2 (s.nextId, 0) = Obj.null :=
      storeGet_addFresh_self s Obj.null
    have hbase : MptInv (addFresh s Obj.null).2 (s.nextId, 0) [] (addFresh s Obj.null).2 :=
      ⟨fun R _ => rfl, fun c hc => absurd hc (List.not_mem_nil c)⟩
    have hres := mptLoop_ok (addFresh s Obj.null).2 (s.nextId, 0) hroot1 cats []
      (addFresh s Obj.null).2 [] 0 s2 kids cnt hbase hl
    obtain ⟨hinv2, hkids, hcnt⟩ := hres
    simp only [List.nil_append] at hkids hinv2
    rw [Int.zero_add] at hcnt
    subst hr
    -- helper: the reserved reference is not a Pages ref of any catalog
    have hcatfacts : ∀ c ∈ cats, ∃ pr d, pagesRefOf c = some pr ∧ pr ≠ (s.nextId, 0) ∧
        storeGet s pr = .dict d ∧ (∃ n : Int, alGet d "Count" = some (.int n)) ∧
        storeGet s2 pr = .dict (alSet d "Parent" (Obj.ref s.nextId 0)) := by
      intro c hc
      rcases hinv2.2 c hc with ⟨pr, hpr, hprroot, d, hs1d, hdc, hcur⟩
      refine ⟨pr, d, hpr, hprroot, ?_, hdc, ?_⟩
      · rw [← storeGet_addFresh_ne s Obj.null pr hprroot]
        exact hs1d
      · simpa using hcur
    have hcntconv : (cats.map (countIn (addFresh s Obj.null).2)).sum =
        (cats.map (countIn s)).sum := by
      apply congrArg List.sum
      apply List.map_congr_left
      intro c hc
      rcases hcatfacts c hc with ⟨pr, d, hpr, hprroot, hsd, _, _⟩
      have : storeGet (addFresh s Obj.null).2 pr = storeGet s pr :=
        storeGet_addFresh_ne s Obj.null pr hprroot
      simp [countIn, hpr, this]
    refine ⟨rfl, ?_, ?_, ?_⟩
    · rw [← hs']
      rw [storeGet_addAt_self]
      rw [hkids, hcnt, hcntconv]
    · intro c hc
      rcases hcatfacts c hc with ⟨pr, d, hpr, hprroot, hsd, hdc, hcur⟩
      refine ⟨pr, d, hpr, hprroot, hsd, hdc, ?_⟩
      rw [← hs', storeGet_addAt_ne s2 (s.nextId, 0) pr _ hprroot]
      exact hcur
    · intro R hRr hRmem
      rw [← hs', storeGet_addAt_ne s2 (s.nextId, 0) R _ hRr, hinv2.1 R hRmem]
      exact storeGet_addFresh_ne s Obj.null R hRr

/-- A concrete store holding two page-tree roots with Counts 3 and 5,
and the two catalogs referring to them, for witnessing the page-tree
merge theorems. -/
def mptDemoStore : Store :=
  { objs := [((1, 0), .dict [("Type", .name "Pages"), ("Kids", .arr []), ("Count", .int 3)]),
             ((2, 0), .dict [("Type", .name "Pages"), ("Kids", .arr []), ("Count", .int 5)])],
    nextId := 3, root := (0, 0) }

/-- The catalog dictionaries of `mptDemoStore`, in source order. -/
def mptDemoCats : List Dict :=
  [[("Type", Obj.name "Catalog"), ("Pages", Obj.ref 1 0)],
   [("Type", Obj.name "Catalog"), ("Pages", Obj.ref 2 0)]]

/-- The reference and store `mergePageTrees` produces on the demo
input. -/
def mptDemoOut : ObjRef × Store :=
  (mergePageTrees mptDemoStore mptDemoCats).toOption.getD ((0, 0), emptyStore)

/-- C3: whenever `mergePageTrees` succeeds, the new root holds a
dictionary whose Count is exactly the sum of the per-source Counts (read
in the entry store), whose Kids are the catalogs' Pages references in
source input order with length equal to the number of sources, and every
kid's dictionary has its Parent equal to the new root reference. -/
theorem claim_C3 :
    ∀ (s : Store) (cats : List Dict) (r : ObjRef) (s' : Store),
      mergePageTrees s cats = .ok (r, s') →
      (storeGet s' r = .dict [("Type", Obj.name "Pages"),
          ("Kids", Obj.arr (cats.map kidOf)),
          ("Count", Obj.int ((cats.map (countIn s)).sum))] ∧
        (cats.map kidOf).length = cats.length) ∧
      (∀ c ∈ cats, ∃ pr d, pagesRefOf c = some pr ∧ storeGet s' pr = .dict d ∧
        alGet d "Parent" = some (.ref r.1 r.2)) := by
  intro s cats r s' h
  obtain ⟨hr, hdict, hcats, hframe⟩ := mergePageTrees_spec s cats r s' h
  refine ⟨⟨hdict, by simp⟩, ?_⟩
  intro c hc
  rcases hcats c hc with ⟨pr, d, hpr, hprr, hsd, hdc, hcur⟩
  exact ⟨pr, alSet d "Parent" (.ref r.1 r.2), hpr, hcur, alGet_set_self d "Parent" _⟩

theorem claim_C3_witness :
    mergePageTrees mptDemoStore mptDemoCats = .ok (mptDemoOut.1, mptDemoOut.2) ∧
    storeGet mptDemoOut.2 mptDemoOut.1 = .dict [("Type", Obj.name "Pages"),
      ("Kids", Obj.arr (mptDemoCats.map kidOf)),
      ("Count", Obj.int ((mptDemoCats.map (countIn mptDemoStore)).sum))] :=
  ⟨rfl, (claim_C3 mptDemoStore mptDemoCats mptDemoOut.1 mptDemoOut.2 rfl).1.1⟩

/-- C4 counterexample: a catalog without a `Pages` entry makes
`mergePageTrees` abort with a type-assertion panic (a crash), not with a
returned structural error naming the offending source index — the Go
code's `catalog["Pages"].(pdf.ObjectReference)` assertion is unchecked,
and no error value carrying an index exists in this code path. -/
theorem claim_C4_counterexample :
    mergePageTrees emptyStore [[("Type", Obj.name "Catalog")]] =
      .error (.panicAssert "mergePageTrees.Pages" "pdf.ObjectReference") ∧
    (Err.panicAssert "mergePageTrees.Pages" "pdf.ObjectReference").isPanic = true :=
  ⟨rfl, rfl⟩

/-- C4 amended: for every input in which some catalog lacks a
reference-valued `Pages` entry, or its referenced object lacks an
integer `Count`, `mergePageTrees` does not succeed — it aborts with a
type-assertion panic (modelled as a panic-kind error), rather than
returning a structural error naming the source index. -/
theorem claim_C4_amended :
    ∀ (s : Store) (cats : List Dict),
      (∃ c ∈ cats, wellFormedCat s c = false) →
      ∃ e, mergePageTrees s cats = .error e ∧ e.isPanic = true := by
  intro s cats hex
  obtain ⟨c, hc, hbad⟩ := hex
  cases hres : mergePageTrees s cats with
  | error e =>
    refine ⟨e, rfl, ?_⟩
    rcases mergePageTrees_err s cats e hres with h | h | h <;> rw [h] <;> rfl
  | ok val =>
    rcases val with ⟨r, s'⟩
    obtain ⟨_, _, hcats, _⟩ := mergePageTrees_spec s cats r s' hres
    rcases hcats c hc with ⟨pr, d, hpr, _, hsd, ⟨n, hdc⟩, _⟩
    rw [show wellFormedCat s c = true by simp [wellFormedCat, hpr, hsd, hdc]] at hbad
    cases hbad

theorem claim_C4_witness :
    (∃ c ∈ [[(("Type" : String), Obj.name "Catalog")]], wellFormedCat emptyStore c = false) ∧
    (∃ e, mergePageTrees emptyStore [[("Type", Obj.name "Catalog")]] = .error e ∧
      e.isPanic = true) :=
  ⟨⟨[("Type", Obj.name "Catalog")], by simp, rfl⟩,
    claim_C4_amended emptyStore [[("Type", Obj.name "Catalog")]]
      ⟨[("Type", Obj.name "Catalog")], by simp, rfl⟩⟩

/-- C6: during reparenting, each successful `mergePageTrees` run writes
back, at each source's own Pages reference, the same dictionary with
only its Parent entry set to the new root, and no other slot (than those
Pages slots and the freshly reserved root) is touched; and one source's
copy pass never mutates any destination slot that existed before the
pass began. -/
theorem claim_C6 :
    (∀ (s : Store) (cats : List Dict) (r : ObjRef) (s' : Store),
      mergePageTrees s cats = .ok (r, s') →
      (∀ c ∈ cats, ∃ pr d, pagesRefOf c = some pr ∧ storeGet s pr = .dict d ∧
        storeGet s' pr = .dict (alSet d "Parent" (.ref r.1 r.2))) ∧
      (∀ R : ObjRef, R ≠ r → R ∉ cats.filterMap pagesRefOf →
        storeGet s' R = storeGet s R)) ∧
    (∀ (fuel : Nat) (src dst : Store) (t : Table) (o : Obj) (t' : Table) (dst' : Store)
      (o' : Obj), copyO fuel src dst t o = .ok (t', dst', o') →
      ∀ R : ObjRef, R.1 < dst.nextId → storeGet dst' R = storeGet dst R) := by
  constructor
  · intro s cats r s' h
    obtain ⟨hr, hdict, hcats, hframe⟩ := mergePageTrees_spec s cats r s' h
    refine ⟨?_, hframe⟩
    intro c hc
    rcases hcats c hc with ⟨pr, d, hpr, hprr, hsd, hdc, hcur⟩
    exact ⟨pr, d, hpr, hsd, hcur⟩
  · intro fuel src dst t o t' dst' o' h
    exact ((copy_inv fuel).1 src dst t o t' dst' o' h).2.2.1

theorem claim_C6_witness :
    mergePageTrees mptDemoStore mptDemoCats = .ok (mptDemoOut.1, mptDemoOut.2) ∧
    (∃ pr d, pagesRefOf [("Type", Obj.name "Catalog"), ("Pages", Obj.ref 1 0)] = some pr ∧
      storeGet mptDemoStore pr = .dict d ∧
      storeGet mptDemoOut.2 pr =
        .dict (alSet d "Parent" (.ref mptDemoOut.1.1 mptDemoOut.1.2))) :=
  ⟨rfl, (claim_C6.1 mptDemoStore mptDemoCats mptDemoOut.1 mptDemoOut.2 rfl).1
    [("Type", Obj.name "Catalog"), ("Pages", Obj.ref 1 0)] (by simp [mptDemoCats])⟩

/-- Does the trace contain an `opened` event? -/
def hasOpened (tr : List Ev) : Bool :=
  tr.any fun e =>
    match e with
    | .opened _ => true
    | _ => false

/-- Does every `opened` event of the trace precede every `copied`
event?  This is the ordering the original claim asserts: all sources
opened before any copy begins. -/
def allOpensPrecedeCopies : List Ev → Bool
  | [] => true
  | .copied _ :: rest => !hasOpened rest && allOpensPrecedeCopies rest
  | _ :: rest => allOpensPrecedeCopies rest

/-- The per-source open/copy event blocks, in source order. -/
def opensCopies : List (String × Option Store) → List Ev
  | [] => []
  | p :: rest => Ev.opened p.1 :: Ev.copied p.1 :: opensCopies rest

theorem getCatalogs_err :
    ∀ (s : Store) (roots : List ObjRef) (e : Err),
      getCatalogs s roots = .error e →
      e = .panicAssert "MergeFiles.catalog" "pdf.Dictionary" := by
  intro s roots
  induction roots with
  | nil => intro e h; simp [getCatalogs] at h
  | cons r rest ih =>
    intro e h
    simp only [getCatalogs] at h
    split at h
    · split at h
      · rename_i e2 heq2
        simp only [Except.error.injEq] at h
        exact h ▸ ih e2 heq2
      · simp at h
    · simp only [Except.error.injEq] at h
      exact h.symm

theorem mfFinish_closed :
    ∀ (saveOk : Bool) (merged : Store) (roots : List ObjRef) (opened : List String)
      (tr : List Ev),
      (mfFinish saveOk merged roots opened tr).closed =
        (mfFinish saveOk merged roots opened tr).opened := by
  intro saveOk merged roots opened tr
  cases hg : getCatalogs merged roots with
  | error e => simp [mfFinish, hg]
  | ok catalogs =>
    cases hm : mergePageTrees merged catalogs with
    | error e => simp [mfFinish, hg, hm]
    | ok val =>
      rcases val with ⟨ptRef, m2⟩
      cases saveOk <;> simp [mfFinish, hg, hm]

theorem mfLoop_closed :
    ∀ (saveOk : Bool) (sources : List (String × Option Store)) (merged : Store)
      (roots : List ObjRef) (opened : List String) (tr : List Ev),
      (mfLoop saveOk sources merged roots opened tr).closed =
        (mfLoop saveOk sources merged roots opened tr).opened := by
  intro saveOk sources
  induction sources with
  | nil =>
    intro merged roots opened tr
    simp only [mfLoop]
    exact mfFinish_closed saveOk merged roots opened tr
  | cons p rest ih =>
    rcases p with ⟨fn, file?⟩
    intro merged roots opened tr
    cases file? with
    | none => simp [mfLoop]
    | some file =>
      cases hc : copyO (phi file [] (.ref file.root.1 file.root.2) + 1) file merged []
          (.ref file.root.1 file.root.2) with
      | error e => simp [mfLoop, hc]
      | ok val =>
        rcases val with ⟨t1, m1, o⟩
        cases o with
        | ref i g =>
          simp only [mfLoop, hc]
          exact ih _ _ _ _
        | null => simp [mfLoop, hc]
        | name s => simp [mfLoop, hc]
        | int n => simp [mfLoop, hc]
        | real v => simp [mfLoop, hc]
        | str s => simp [mfLoop, hc]
        | dict es => simp [mfLoop, hc]
        | arr xs => simp [mfLoop, hc]
        | stream es payload => simp [mfLoop, hc]

theorem mfFinish_noRoot :
    ∀ (saveOk : Bool) (merged : Store) (roots : List ObjRef) (opened : List String)
      (tr : List Ev),
      (mfFinish saveOk merged roots opened tr).result ≠
        .error (.panicAssert "MergeFiles.root" "pdf.ObjectReference") := by
  intro saveOk merged roots opened tr heq
  cases hg : getCatalogs merged roots with
  | error e =>
    simp only [mfFinish, hg, Except.error.injEq] at heq
    have h2 := getCatalogs_err merged roots e hg
    rw [heq] at h2
    exact absurd h2 (by decide)
  | ok catalogs =>
    cases hm : mergePageTrees merged catalogs with
    | error e =>
      simp only [mfFinish, hg, hm, Except.error.injEq] at heq
      rcases mergePageTrees_err merged catalogs e hm with h2 | h2 | h2 <;>
        (rw [heq] at h2; exact absurd h2 (by decide))
    | ok val =>
      rcases val with ⟨ptRef, m2⟩
      cases saveOk with
      | true => simp [mfFinish, hg, hm] at heq
      | false => simp [mfFinish, hg, hm] at heq

theorem mfLoop_noRoot :
    ∀ (saveOk : Bool) (sources : List (String × Option Store)) (merged : Store)
      (roots : List ObjRef) (opened : List String) (tr : List Ev),
      (mfLoop saveOk sources merged roots opened tr).result ≠
        .error (.panicAssert "MergeFiles.root" "pdf.ObjectReference") := by
  intro saveOk sources
  induction sources with
  | nil =>
    intro merged roots opened tr
    simp only [mfLoop]
    exact mfFinish_noRoot saveOk merged roots opened tr
  | cons p rest ih =>
    rcases p with ⟨fn, file?⟩
    intro merged roots opened tr heq
    cases file? with
    | none => simp [mfLoop] at heq
    | some file =>
      cases hc : copyO (phi file [] (.ref file.root.1 file.root.2) + 1) file merged []
          (.ref file.root.1 file.root.2) with
      | error e =>
        simp only [mfLoop, hc, Except.error.injEq] at heq
        rcases (copy_err (phi file [] (.ref file.root.1 file.root.2) + 1)).1
            file merged [] (.ref file.root.1 file.root.2) e hc with h2 | h2 <;>
          (rw [heq] at h2; exact absurd h2 (by decide))
      | ok val =>
        rcases val with ⟨t1, m1, o⟩
        obtain ⟨j, k, rfl⟩ := copyO_ref_ref _ file merged [] file.root.1 file.root.2
          t1 m1 o hc
        simp only [mfLoop, hc] at heq
        exact ih _ _ _ _ heq

theorem mfLoop_trace_ok :
    ∀ (saveOk : Bool) (sources : List (String × Option Store)) (merged : Store)
      (roots : List ObjRef) (opened : List String) (tr : List Ev) (s : Store),
      (mfLoop saveOk sources merged roots opened tr).result = .ok s →
      (mfLoop saveOk sources merged roots opened tr).trace =
        tr ++ opensCopies sources ++ [Ev.treesMerged, Ev.catalogInstalled, Ev.saved] := by
  intro saveOk sources
  induction sources with
  | nil =>
    intro merged roots opened tr s h
    simp only [mfLoop] at h ⊢
    cases hg : getCatalogs merged roots with
    | error e => simp [mfFinish, hg] at h
    | ok catalogs =>
      cases hm : mergePageTrees merged catalogs with
      | error e => simp [mfFinish, hg, hm] at h
      | ok val =>
        rcases val with ⟨ptRef, m2⟩
        cases saveOk with
        | false => simp [mfFinish, hg, hm] at h
        | true => simp [mfFinish, hg, hm, opensCopies]
  | cons p rest ih =>
    rcases p with ⟨fn, file?⟩
    intro merged roots opened tr s h
    cases file? with
    | none => simp [mfLoop] at h
    | some file =>
      cases hc : copyO (phi file [] (.ref file.root.1 file.root.2) + 1) file merged []
          (.ref file.root.1 file.root.2) with
      | error e => simp [mfLoop, hc] at h
      | ok val =>
        rcases val with ⟨t1, m1, o⟩
        obtain ⟨j, k, rfl⟩ := copyO_ref_ref _ file merged [] file.root.1 file.root.2
          t1 m1 o hc
        simp only [mfLoop, hc] at h ⊢
        rw [ih _ _ _ _ s h]
        simp [opensCopies]

/-- C7 counterexample: on a successful two-source merge, the trace
interleaves opens and copies — source "a" is copied before source "b" is
opened — so it is not the case that every source is opened before any
source's graph is copied.  The orchestrator's single loop opens and
copies each source in turn. -/
theorem claim_C7_counterexample :
    (mergeFiles true true "dest" [("a", some srcA), ("b", some srcB)]).trace =
      [Ev.created, Ev.opened "a", Ev.copied "a", Ev.opened "b", Ev.copied "b",
       Ev.treesMerged, Ev.catalogInstalled, Ev.saved] ∧
    allOpensPrecedeCopies
      (mergeFiles true true "dest" [("a", some srcA), ("b", some srcB)]).trace = false ∧
    (mergeFiles true true "dest" [("a", some srcA), ("b", some srcB)]).result.toOption.isSome
      = true :=
  ⟨rfl, rfl, rfl⟩

/-- C7 amended: a successful merge passes through the states
created → (opened.i → copied.i per source, in order) → page-trees-merged
→ catalog-installed → saved; sources are opened and copied interleaved
(each source is fully copied before the next is opened), not all opened
first. -/
theorem claim_C7_amended :
    ∀ (saveOk : Bool) (dest : String) (sources : List (String × Option Store)) (s : Store),
      (mergeFiles true saveOk dest sources).result = .ok s →
      (mergeFiles true saveOk dest sources).trace =
        Ev.created :: (opensCopies sources ++
          [Ev.treesMerged, Ev.catalogInstalled, Ev.saved]) := by
  intro saveOk dest sources s h
  simp only [mergeFiles, if_true] at h ⊢
  rw [mfLoop_trace_ok saveOk sources emptyStore [] [] [Ev.created] s h]
  simp

theorem claim_C7_witness :
    (mergeFiles true true "d" [("a", some srcA)]).trace =
      Ev.created :: (opensCopies [("a", some srcA)] ++
        [Ev.treesMerged, Ev.catalogInstalled, Ev.saved]) :=
  claim_C7_amended true "d" [("a", some srcA)]
    ((mergeFiles true true "d" [("a", some srcA)]).result.toOption.getD emptyStore) rfl

/-- Modelled from the spec: a store together with the fallibility of
its `Add` operation (`Add(obj) → ref | error` in the Document-Handle
contract).  `addOk k` says whether the k-th Add call of the run
succeeds; `calls` counts the Add calls made so far. -/
structure StoreE where
  store : Store
  addOk : Nat → Bool
  calls : Nat

/-- Modelled from the spec: fallible `Add(obj)` with a fresh
reference. -/
def addFreshE (s : StoreE) (o : Obj) : Except Err (ObjRef × StoreE) :=
  if s.addOk s.calls then
    .ok ((addFresh s.store o).1,
      { store := (addFresh s.store o).2, addOk := s.addOk, calls := s.calls + 1 })
  else .error .addFail

/-- Modelled from the spec: fallible `Add(IndirectObject{ref, obj})`. -/
def addAtE (s : StoreE) (r : ObjRef) (o : Obj) : Except Err (ObjRef × StoreE) :=
  if s.addOk s.calls then
    .ok (r, { store := addAt s.store r o, addOk := s.addOk, calls := s.calls + 1 })
  else .error .addFail

mutual

/-- `copyReferencedObjects` over the fallible-Add store: identical to
`copyO` except that the two `dst.Add` calls of the reference case check
and propagate the Add error, as the Go source does (`if addErr != nil`
after the placeholder Add, `if err != nil` after the overwrite Add). -/
def copyOE : Nat → Store → StoreE → Table → Obj → Except Err (Table × StoreE × Obj)
  | 0, _, _, _, _ => .error .outOfFuel
  | _ + 1, _, dst, t, .name s => .ok (t, dst, .name s)
  | _ + 1, _, dst, t, .int n => .ok (t, dst, .int n)
  | _ + 1, _, dst, t, .real v => .ok (t, dst, .real v)
  | _ + 1, _, dst, t, .str s => .ok (t, dst, .str s)
  | _ + 1, _, _, _, .null => .error (.unhandled "pdf.Null")
  | fuel + 1, src, dst, t, .ref i g =>
    match alGet t (i, g) with
    | some d => .ok (t, dst, .ref d.1 d.2)
    | none =>
      match addFreshE dst Obj.null with
      | .error e => .error e
      | .ok (ph, dst1) =>
        let t1 := alSet t (i, g) ph
        match copyOE fuel src dst1 t1 (storeGet src (i, g)) with
        | .error e => .error e
        | .ok (t2, dst2, newObj) =>
          match addAtE dst2 ph newObj with
          | .error e => .error e
          | .ok (ph2, dst3) => .ok (alSet t2 (i, g) ph2, dst3, .ref ph2.1 ph2.2)
  | fuel + 1, src, dst, t, .dict es =>
    match copyEntriesE fuel src dst t es with
    | .error e => .error e
    | .ok (t2, dst2, es2) => .ok (t2, dst2, .dict es2)
  | fuel + 1, src, dst, t, .arr xs =>
    match copyArrE fuel src dst t xs with
    | .error e => .error e
    | .ok (t2, dst2, xs2) => .ok (t2, dst2, .arr xs2)
  | fuel + 1, src, dst, t, .stream es payload =>
    match copyEntriesE fuel src dst t es with
    | .error e => .error e
    | .ok (t2, dst2, es2) => .ok (t2, dst2, .stream es2 payload)
termination_by structural fuel _ _ _ _ => fuel

/-- The Dictionary/Stream branch over the fallible-Add store. -/
def copyEntriesE : Nat → Store → StoreE → Table → List (String × Obj) →
    Except Err (Table × StoreE × List (String × Obj))
  | _, _, dst, t, [] => .ok (t, dst, [])
  | 0, _, _, _, _ :: _ => .error .outOfFuel
  | fuel + 1, src, dst, t, (k, v) :: rest =>
    match copyOE fuel src dst t v with
    | .error e => .error e
    | .ok (t1, dst1, v1) =>
      match copyEntriesE fuel src dst1 t1 rest with
      | .error e => .error e
      | .ok (t2, dst2, rest2) => .ok (t2, dst2, (k, v1) :: rest2)
termination_by structural fuel _ _ _ _ => fuel

/-- The Array branch over the fallible-Add store. -/
def copyArrE : Nat → Store → StoreE → Table → List Obj →
    Except Err (Table × StoreE × List Obj)
  | _, _, dst, t, [] => .ok (t, dst, [])
  | 0, _, _, _, _ :: _ => .error .outOfFuel
  | fuel + 1, src, dst, t, v :: rest =>
    match copyOE fuel src dst t v with
    | .error e => .error e
    | .ok (t1, dst1, v1) =>
      match copyArrE fuel src dst1 t1 rest with
      | .error e => .error e
      | .ok (t2, dst2, rest2) => .ok (t2, dst2, v1 :: rest2)
termination_by structural fuel _ _ _ _ => fuel

end

/-- The `mergePageTrees` loop over the fallible-Add store: the
write-back `file.Add(IndirectObject{...})` is checked (`if err != nil`)
before the `Count` assertion, as in the Go source. -/
def mptLoopE (root : ObjRef) : StoreE → List Dict → List Obj → Int →
    Except Err (StoreE × List Obj × Int)
  | s, [], kids, cnt => .ok (s, kids, cnt)
  | s, c :: rest, kids, cnt =>
    match alGet c "Pages" with
    | some (.ref i g) =>
      let kids := kids ++ [Obj.ref i g]
      match storeGet s.store (i, g) with
      | .dict pages =>
        let pages := alSet pages "Parent" (Obj.ref root.1 root.2)
        match addAtE s (i, g) (.dict pages) with
        | .error e => .error e
        | .ok (_, s1) =>
          match alGet pages "Count" with
          | some (.int n) => mptLoopE root s1 rest kids (cnt + n)
          | _ => .error (.panicAssert "mergePageTrees.Count" "pdf.Integer")
      | _ => .error (.panicAssert "mergePageTrees.pages" "pdf.Dictionary")
    | _ => .error (.panicAssert "mergePageTrees.Pages" "pdf.ObjectReference")

/-- `mergePageTrees` over the fallible-Add store: the placeholder Add,
the per-catalog write-back Adds and the final Add can each fail and
propagate their error. -/
def mergePageTreesE (s : StoreE) (catalogs : List Dict) : Except Err (ObjRef × StoreE) :=
  match addFreshE s Obj.null with
  | .error e => .error e
  | .ok (ptRef, s1) =>
    match mptLoopE ptRef s1 catalogs [] 0 with
    | .error e => .error e
    | .ok (s2, kids, cnt) =>
      match addAtE s2 ptRef (.dict [("Type", Obj.name "Pages"), ("Kids", Obj.arr kids),
          ("Count", Obj.int cnt)]) with
      | .error e => .error e
      | .ok (_, s3) => .ok (ptRef, s3)

/-- The tail of `MergeFiles` over the fallible-Add store: the
`merged.Add` installing the new catalog is checked (`if err != nil`) and
its failure is an exit path of its own.  Every exit closes all opened
sources. -/
def mfFinishE (saveOk : Bool) (merged : StoreE) (roots : List ObjRef)
    (opened : List String) (tr : List Ev) : MergeOut :=
  match getCatalogs merged.store roots with
  | .error e => { result := .error e, opened := opened, closed := opened, trace := tr }
  | .ok catalogs =>
    match mergePageTreesE merged catalogs with
    | .error e => { result := .error e, opened := opened, closed := opened, trace := tr }
    | .ok (ptRef, merged) =>
      let tr := tr ++ [Ev.treesMerged]
      match addFreshE merged (.dict [("Type", Obj.name "Catalog"),
          ("Pages", Obj.ref ptRef.1 ptRef.2)]) with
      | .error e => { result := .error e, opened := opened, closed := opened, trace := tr }
      | .ok (rootRef, merged) =>
        let mergedS : Store :=
          { objs := merged.store.objs, nextId := merged.store.nextId, root := rootRef }
        let tr := tr ++ [Ev.catalogInstalled]
        if saveOk then
          { result := .ok mergedS, opened := opened, closed := opened,
            trace := tr ++ [Ev.saved] }
        else
          { result := .error .saveFail, opened := opened, closed := opened, trace := tr }

/-- The per-source loop of `MergeFiles` over the fallible-Add store. -/
def mfLoopE (saveOk : Bool) : List (String × Option Store) → StoreE → List ObjRef →
    List String → List Ev → MergeOut
  | [], merged, roots, opened, tr => mfFinishE saveOk merged roots opened tr
  | (fn, none) :: _, _, _, opened, tr =>
    { result := .error (.openFail fn), opened := opened, closed := opened, trace := tr }
  | (fn, some file) :: rest, merged, roots, opened, tr =>
    let opened := opened ++ [fn]
    let tr := tr ++ [Ev.opened fn]
    match copyOE (phi file [] (.ref file.root.1 file.root.2) + 1) file merged []
        (.ref file.root.1 file.root.2) with
    | .error e => { result := .error e, opened := opened, closed := opened, trace := tr }
    | .ok (_, merged, o) =>
      match o with
      | .ref i g =>
        let st : Store :=
          { objs := merged.store.objs, nextId := merged.store.nextId, root := (i, g) }
        mfLoopE saveOk rest { store := st, addOk := merged.addOk, calls := merged.calls }
          (roots ++ [(i, g)]) opened (tr ++ [Ev.copied fn])
      | _ =>
        { result := .error (.panicAssert "MergeFiles.root" "pdf.ObjectReference"),
          opened := opened, closed := opened, trace := tr }

/-- `MergeFiles` from the source with the Document-Handle contract's
fallible `Add` restored: the k-th store Add of the run succeeds iff
`addOk k`, so every `if err != nil` exit after an Add in the Go source —
in the copy engine, in `mergePageTrees` and at the catalog installation
— is a reachable exit path.  `mergeFiles` above is the restriction of
this embedding in which every Add succeeds. -/
def mergeFilesE (createOk saveOk : Bool) (addOk : Nat → Bool) (dest : String)
    (sources : List (String × Option Store)) : MergeOut :=
  if createOk then
    mfLoopE saveOk sources { store := emptyStore, addOk := addOk, calls := 0 } [] []
      [Ev.created]
  else { result := .error (.createFail dest), opened := [], closed := [], trace := [] }

theorem mfFinishE_closed :
    ∀ (saveOk : Bool) (merged : StoreE) (roots : List ObjRef) (opened : List String)
      (tr : List Ev),
      (mfFinishE saveOk merged roots opened tr).closed =
        (mfFinishE saveOk merged roots opened tr).opened := by
  intro saveOk merged roots opened tr
  cases hg : getCatalogs merged.store roots with
  | error e => simp [mfFinishE, hg]
  | ok catalogs =>
    cases hm : mergePageTreesE merged catalogs with
    | error e => simp [mfFinishE, hg, hm]
    | ok val =>
      rcases val with ⟨ptRef, m2⟩
      cases ha : addFreshE m2 (.dict [("Type", Obj.name "Catalog"),
          ("Pages", Obj.ref ptRef.1 ptRef.2)]) with
      | error e => simp [mfFinishE, hg, hm, ha]
      | ok val2 =>
        rcases val2 with ⟨rootRef, m3⟩
        cases saveOk <;> simp [mfFinishE, hg, hm, ha]

theorem mfLoopE_closed :
    ∀ (saveOk : Bool) (sources : List (String × Option Store)) (merged : StoreE)
      (roots : List ObjRef) (opened : List String) (tr : List Ev),
      (mfLoopE saveOk sources merged roots opened tr).closed =
        (mfLoopE saveOk sources merged roots opened tr).opened := by
  intro saveOk sources
  induction sources with
  | nil =>
    intro merged roots opened tr
    simp only [mfLoopE]
    exact mfFinishE_closed saveOk merged roots opened tr
  | cons p rest ih =>
    rcases p with ⟨fn, file?⟩
    intro merged roots opened tr
    cases file? with
    | none => simp [mfLoopE]
    | some file =>
      cases hc : copyOE (phi file [] (.ref file.root.1 file.root.2) + 1) file merged []
          (.ref file.root.1 file.root.2) with
      | error e => simp [mfLoopE, hc]
      | ok val =>
        rcases val with ⟨t1, m1, o⟩
        cases o with
        | ref i g =>
          simp only [mfLoopE, hc]
          exact ih _ _ _ _
        | null => simp [mfLoopE, hc]
        | name s => simp [mfLoopE, hc]
        | int n => simp [mfLoopE, hc]
        | real v => simp [mfLoopE, hc]
        | str s => simp [mfLoopE, hc]
        | dict es => simp [mfLoopE, hc]
        | arr xs => simp [mfLoopE, hc]
        | stream es payload => simp [mfLoopE, hc]

/-- C8: on every exit path of `MergeFiles` — success, open failure, a
copy error (including a failing Add while copying), a page-tree-merge
error (panic or failing Add), a catalog-add error, or a save failure —
and for every pattern of Add failures, the deferred cleanup closes
exactly the source handles that were successfully opened before the
exit. -/
theorem claim_C8 :
    ∀ (createOk saveOk : Bool) (addOk : Nat → Bool) (dest : String)
      (sources : List (String × Option Store)),
      (mergeFilesE createOk saveOk addOk dest sources).closed =
        (mergeFilesE createOk saveOk addOk dest sources).opened := by
  intro createOk saveOk addOk dest sources
  cases createOk with
  | true =>
    simp only [mergeFilesE, if_true]
    exact mfLoopE_closed saveOk sources
      { store := emptyStore, addOk := addOk, calls := 0 } [] [] [Ev.created]
  | false => simp [mergeFilesE]

/-- C9: a copy whose input is an ObjectReference yields, on success, an
ObjectReference; hence the orchestrator's unchecked
`root.(pdf.ObjectReference)` assertion on the copy result of each
source's Root never panics, on any input. -/
theorem claim_C9 :
    (∀ (fuel : Nat) (src dst : Store) (t : Table) (i g : Nat) (t' : Table) (dst' : Store)
      (o' : Obj), copyO fuel src dst t (.ref i g) = .ok (t', dst', o') →
      ∃ j k : Nat, o' = .ref j k) ∧
    (∀ (createOk saveOk : Bool) (dest : String) (sources : List (String × Option Store)),
      (mergeFiles createOk saveOk dest sources).result ≠
        .error (.panicAssert "MergeFiles.root" "pdf.ObjectReference")) := by
  constructor
  · exact copyO_ref_ref
  · intro createOk saveOk dest sources
    cases createOk with
    | true =>
      simp only [mergeFiles, if_true]
      exact mfLoop_noRoot saveOk sources emptyStore [] [] [Ev.created]
    | false => simp [mergeFiles]

theorem claim_C9_witness :
    (∃ j k : Nat, Obj.ref 7 0 = Obj.ref j k) ∧
    (mergeFiles true true "d" [("a", some srcA)]).result ≠
      .error (.panicAssert "MergeFiles.root" "pdf.ObjectReference") :=
  ⟨claim_C9.1 1 emptyStore emptyStore ([((1, 0), (7, 0))] : Table) 1 0
      ([((1, 0), (7, 0))] : Table) emptyStore (.ref 7 0) rfl,
    claim_C9.2 true true "d" [("a", some srcA)]⟩

/-- C10: merging zero sources succeeds and produces a destination whose
root is the catalog dictionary {Type: Catalog, Pages: (1,0)}, where
reference (1,0) holds the page tree {Type: Pages, Kids: [], Count: 0}. -/
theorem claim_C10 :
    (mergeFiles true true "dest" []).result.toOption.isSome = true ∧
    (let s := (mergeFiles true true "dest" []).result.toOption.getD emptyStore
     storeGet s s.root = .dict [("Type", Obj.name "Catalog"), ("Pages", Obj.ref 1 0)] ∧
     storeGet s (1, 0) = .dict [("Type", Obj.name "Pages"), ("Kids", Obj.arr []),
       ("Count", Obj.int 0)]) :=
  ⟨rfl, rfl, rfl⟩
